import Mathlib

set_option maxHeartbeats 1000000

set_option maxRecDepth 8000

namespace Timeutils

/-!
Shallow embedding of `src/lib/timeutils.c` (util-linux).  Strings are
modelled as `List Char`; the unsigned 64-bit `usec_t` is modelled as `Nat`
reduced modulo `2 ^ 64` at every operation where the C code can wrap; the
`long long` results of `strtoll` are modelled as `Int` clamped to the
signed 64-bit range with an explicit `ERANGE` flag, as the C library
specifies.
-/

/-- 2 ^ 64, the modulus of the unsigned 64-bit `usec_t`. -/
def P64 : Nat := 18446744073709551616

/-- Largest value of the C `long long` type. -/
def LLONG_MAX : Nat := 9223372036854775807

def isDigitC (c : Char) : Bool := 48 ≤ c.toNat && c.toNat ≤ 57

def digitVal (c : Char) : Nat := c.toNat - 48

/-- The four characters of the `WHITESPACE` macro of `timeutils.c`:
space, tab, newline, carriage return. -/
def isWS4 (c : Char) : Bool :=
  c.toNat == 32 || c.toNat == 9 || c.toNat == 10 || c.toNat == 13

/-- C `isspace`: space, tab, newline, vertical tab, form feed, carriage
return (used by `strtoll` when it skips leading white space). -/
def isSp6 (c : Char) : Bool :=
  c.toNat == 32 || (9 ≤ c.toNat && c.toNat ≤ 13)

/-- Value of a run of decimal digits, most significant first. -/
def digitsToNat (l : List Char) : Nat :=
  l.foldl (fun a c => a * 10 + digitVal c) 0

/-- Result of the `strtoll` model: converted value, end pointer,
`errno == ERANGE` flag, and whether any digits were converted
(`conv = false` iff the end pointer equals the input pointer). -/
structure StrtollRes where
  val : Int
  rest : List Char
  erange : Bool
  conv : Bool

/-- Leading sign handling of `strtoll`. -/
def splitSign (l : List Char) : Bool × List Char :=
  match l with
  | c :: t => if c = '-' then (true, t) else if c = '+' then (false, t) else (false, l)
  | [] => (false, [])

/-- Modelled from the spec and the C library contract of `strtoll`
(base 10): skip `isspace` white space, read an optional sign and a
maximal run of decimal digits; with no digits the end pointer is the
original input; a value outside the signed 64-bit range is clamped and
flagged as `ERANGE`. -/
def strtollM (p : List Char) : StrtollRes :=
  let sg := splitSign (List.dropWhile isSp6 p)
  let ds := sg.2.takeWhile isDigitC
  if ds = [] then ⟨0, p, false, false⟩
  else
    let v := digitsToNat ds
    let rest := sg.2.dropWhile isDigitC
    if sg.1 then
      if 9223372036854775808 < v then ⟨-9223372036854775808, rest, true, true⟩
      else ⟨-(v : Int), rest, false, true⟩
    else
      if LLONG_MAX < v then ⟨(LLONG_MAX : Int), rest, true, true⟩
      else ⟨(v : Int), rest, false, true⟩

/-- Modelled from the spec (the constants live in the repository header
`timeutils.h`, which is not part of `src/`): microseconds per second,
minute, hour, day, week, month (30.44 days), year (365.25 days),
millisecond. -/
def USEC_PER_SEC : Nat := 1000000

def USEC_PER_MSEC : Nat := 1000

def USEC_PER_MINUTE : Nat := 60000000

def USEC_PER_HOUR : Nat := 3600000000

def USEC_PER_DAY : Nat := 86400000000

def USEC_PER_WEEK : Nat := 604800000000

def USEC_PER_MONTH : Nat := 2629800000000

def USEC_PER_YEAR : Nat := 31557600000000

/-- The suffix table of `parse_sec`, in source order; the final entry has
the empty suffix ("default is sec"). -/
def unitTable : List (List Char × Nat) :=
  [ ("seconds".data, USEC_PER_SEC)
  , ("second".data, USEC_PER_SEC)
  , ("sec".data, USEC_PER_SEC)
  , ("s".data, USEC_PER_SEC)
  , ("minutes".data, USEC_PER_MINUTE)
  , ("minute".data, USEC_PER_MINUTE)
  , ("min".data, USEC_PER_MINUTE)
  , ("months".data, USEC_PER_MONTH)
  , ("month".data, USEC_PER_MONTH)
  , ("msec".data, USEC_PER_MSEC)
  , ("ms".data, USEC_PER_MSEC)
  , ("m".data, USEC_PER_MINUTE)
  , ("hours".data, USEC_PER_HOUR)
  , ("hour".data, USEC_PER_HOUR)
  , ("hr".data, USEC_PER_HOUR)
  , ("h".data, USEC_PER_HOUR)
  , ("days".data, USEC_PER_DAY)
  , ("day".data, USEC_PER_DAY)
  , ("d".data, USEC_PER_DAY)
  , ("weeks".data, USEC_PER_WEEK)
  , ("week".data, USEC_PER_WEEK)
  , ("w".data, USEC_PER_WEEK)
  , ("years".data, USEC_PER_YEAR)
  , ("year".data, USEC_PER_YEAR)
  , ("y".data, USEC_PER_YEAR)
  , ("usec".data, 1)
  , ("us".data, 1)
  , ([], USEC_PER_SEC) ]

/-- First table entry whose suffix is a literal prefix of `e`
(`startswith` of `strutils.h`, modelled from the spec as literal prefix
match); returns the microsecond factor and the suffix length. -/
def findUnitIn : List (List Char × Nat) → List Char → Option (Nat × Nat)
  | [], _ => none
  | (suf, u) :: tbl, e =>
    if suf.isPrefixOf e then some (u, suf.length) else findUnitIn tbl e

def findUnit (e : List Char) : Option (Nat × Nat) := findUnitIn unitTable e

/-- Error exits of `parse_sec`, tagged by source branch; `errnoSec` maps
them to the C return values. -/
inductive SecErr where
  | invalidEmpty
  | overflowInt
  | negativeInt
  | negativeFrac
  | invalidNoFracDigits
  | invalidNoDigits
  | unknownUnit
deriving DecidableEq

instance {ε α : Type} [DecidableEq ε] [DecidableEq α] : DecidableEq (Except ε α) := fun x y =>
  match x, y with
  | .ok a, .ok b =>
    if h : a = b then isTrue (by rw [h])
    else isFalse (by intro hc; exact h (Except.ok.inj hc))
  | .error a, .error b =>
    if h : a = b then isTrue (by rw [h])
    else isFalse (by intro hc; exact h (Except.error.inj hc))
  | .ok _, .error _ => isFalse (fun hc => Except.noConfusion hc)
  | .error _, .ok _ => isFalse (fun hc => Except.noConfusion hc)

/-- The C return value (`-EINVAL = -22`, `-ERANGE = -34`) of each error exit. -/
def errnoSec : SecErr → Int
  | .overflowInt => -34
  | .negativeInt => -34
  | .negativeFrac => -34
  | _ => -22

/-- One parsed `<int>[.<frac>]<unit>` term: integer part, fraction part,
count of characters consumed for the fraction, microsecond factor of the
matched unit, and the remaining text after the unit suffix. -/
structure SecTerm where
  l : Nat
  z : Nat
  n : Nat
  u : Nat
  rest : List Char

/-- Lines 94-139 of `timeutils.c`: one iteration body of the `parse_sec`
loop after the leading white-space skip, on a non-exhausted input. -/
def parseTermC (p : List Char) : Except SecErr SecTerm :=
  let s1 := strtollM p
  if s1.erange then .error .overflowInt
  else if s1.val < 0 then .error .negativeInt
  else match s1.rest with
    | '.' :: b =>
      let s2 := strtollM b
      if s2.erange then .error .overflowInt
      else if s2.val < 0 then .error .negativeFrac
      else if s2.conv = false then .error .invalidNoFracDigits
      else
        let e2 := List.dropWhile isWS4 s2.rest
        match findUnit e2 with
        | some (u, len) =>
          .ok ⟨s1.val.toNat, s2.val.toNat, b.length - s2.rest.length, u, e2.drop len⟩
        | none => .error .unknownUnit
    | e =>
      if s1.conv = false then .error .invalidNoDigits
      else
        let e2 := List.dropWhile isWS4 e
        match findUnit e2 with
        | some (u, len) => .ok ⟨s1.val.toNat, 0, 0, u, e2.drop len⟩
        | none => .error .unknownUnit

/-- The fraction scaling of lines 128-129: divide by ten, `n` times. -/
def divTen (k : Nat) : Nat → Nat
  | 0 => k
  | n + 1 => divTen (k / 10) n

lemma takeWhile_append_dropWhile_len (f : Char → Bool) (l : List Char) :
    (l.takeWhile f).length + (l.dropWhile f).length = l.length := by
  rw [← List.length_append, List.takeWhile_append_dropWhile]

lemma dropWhile_len_le (f : Char → Bool) (l : List Char) :
    (l.dropWhile f).length ≤ l.length := by
  have := takeWhile_append_dropWhile_len f l
  omega

lemma splitSign_len_le (l : List Char) : (splitSign l).2.length ≤ l.length := by
  cases l with
  | nil => simp [splitSign]
  | cons c t =>
    simp only [splitSign]
    split_ifs <;> simp

lemma strtollM_rest_le (p : List Char) : (strtollM p).rest.length ≤ p.length := by
  have h1 := takeWhile_append_dropWhile_len isDigitC (splitSign (List.dropWhile isSp6 p)).2
  have h2 := splitSign_len_le (List.dropWhile isSp6 p)
  have h3 := dropWhile_len_le isSp6 p
  by_cases hds : (splitSign (List.dropWhile isSp6 p)).2.takeWhile isDigitC = []
  · simp only [strtollM, if_pos hds]
    omega
  · simp only [strtollM, if_neg hds]
    split_ifs <;> dsimp only <;> omega

lemma strtollM_conv_lt (p : List Char)
    (h : (strtollM p).conv = true) : (strtollM p).rest.length < p.length := by
  have h1 := takeWhile_append_dropWhile_len isDigitC (splitSign (List.dropWhile isSp6 p)).2
  have h2 := splitSign_len_le (List.dropWhile isSp6 p)
  have h3 := dropWhile_len_le isSp6 p
  by_cases hds : (splitSign (List.dropWhile isSp6 p)).2.takeWhile isDigitC = []
  · simp only [strtollM, if_pos hds] at h
    exact Bool.noConfusion h
  · have h5 : 0 < ((splitSign (List.dropWhile isSp6 p)).2.takeWhile isDigitC).length :=
      List.length_pos.mpr hds
    simp only [strtollM, if_neg hds]
    split_ifs <;> dsimp only <;> omega

lemma parseTermC_rest_lt (p : List Char) (t : SecTerm)
    (h : parseTermC p = .ok t) : t.rest.length < p.length := by
  revert h
  simp only [parseTermC]
  split
  · intro h
    exact absurd h (by simp)
  split
  · intro h
    exact absurd h (by simp)
  split
  · -- fraction branch: s1.rest = '.' :: b
    rename_i b heq
    have hb : b.length < p.length := by
      have h1 := strtollM_rest_le p
      rw [heq] at h1
      simp at h1
      omega
    split
    · intro h
      exact absurd h (by simp)
    split
    · intro h
      exact absurd h (by simp)
    split
    · intro h
      exact absurd h (by simp)
    · have h2 := strtollM_rest_le b
      have h3 := dropWhile_len_le isWS4 (strtollM b).rest
      split
      · rename_i u len hfu
        intro h
        obtain rfl := Except.ok.inj h
        dsimp only
        simp only [List.length_drop]
        omega
      · intro h
        exact absurd h (by simp)
  · -- no-fraction branch
    split
    · intro h
      exact absurd h (by simp)
    · rename_i hconv
      have hc : (strtollM p).conv = true := by
        revert hconv
        cases (strtollM p).conv <;> simp
      have h1 := strtollM_conv_lt p hc
      have h3 := dropWhile_len_le isWS4 (strtollM p).rest
      split
      · rename_i u len hfu
        intro h
        obtain rfl := Except.ok.inj h
        dsimp only
        simp only [List.length_drop]
        omega
      · intro h
        exact absurd h (by simp)

/-- Lines 80-141 of `timeutils.c`: the accumulation loop of `parse_sec`.
`r` is the running `usec_t` total, `something` records whether a term was
already consumed.  The loop consumes at least one character per
iteration, so it is driven by a structural fuel argument that
`parse_sec` instantiates with `length + 1`, which is provably
sufficient (`parseSecGo_fuel`). -/
def parseSecGo : Nat → List Char → Bool → Nat → Except SecErr Nat
  | 0, _, _, _ => .error .invalidEmpty
  | fuel + 1, p, something, r =>
    if (List.dropWhile isWS4 p) = [] then
      (if something then .ok r else .error .invalidEmpty)
    else
      match parseTermC (List.dropWhile isWS4 p) with
      | .error e => .error e
      | .ok t =>
        parseSecGo fuel t.rest true
          ((r + (t.l * t.u) % P64 + divTen ((t.z * t.u) % P64) t.n) % P64)

/-- Any fuel beyond the input length gives the same result: the fuel
exhaustion branch of `parseSecGo` is unreachable from `parse_sec`. -/
lemma parseSecGo_fuel (fuel fuel' : Nat) (p : List Char) (something : Bool) (r : Nat)
    (h : p.length < fuel) (h' : p.length < fuel') :
    parseSecGo fuel p something r = parseSecGo fuel' p something r := by
  induction fuel generalizing fuel' p something r with
  | zero => omega
  | succ n ih =>
    cases fuel' with
    | zero => omega
    | succ n' =>
      simp only [parseSecGo]
      by_cases hq : (List.dropWhile isWS4 p) = []
      · simp [hq]
      · simp only [hq, if_neg]
        cases ht : parseTermC (List.dropWhile isWS4 p) with
        | error e => simp
        | ok t =>
          have h1 := parseTermC_rest_lt (List.dropWhile isWS4 p) t ht
          have h2 := dropWhile_len_le isWS4 p
          simp only []
          exact ih n' t.rest true _ (by omega) (by omega)

/-- `parse_sec` of `timeutils.c`: on success the total duration in
microseconds, otherwise the tagged error exit. -/
def parse_sec (t : List Char) : Except SecErr Nat :=
  parseSecGo (t.length + 1) t false 0

lemma findUnitIn_isSome (tbl : List (List Char × Nat)) (e : List Char)
    (h : ∃ u, ([], u) ∈ tbl) : (findUnitIn tbl e).isSome := by
  induction tbl with
  | nil => simp at h
  | cons hd tl ih =>
    obtain ⟨suf, uu⟩ := hd
    obtain ⟨u, hu⟩ := h
    simp only [findUnitIn]
    split_ifs with hp
    · simp
    · rcases List.mem_cons.mp hu with h1 | h1
      · exfalso
        have hs : suf = [] := by
          have := congrArg Prod.fst h1
          simpa using this.symm
        rw [hs] at hp
        simp [List.isPrefixOf] at hp
      · exact ih ⟨u, h1⟩

lemma findUnit_isSome (e : List Char) : (findUnit e).isSome :=
  findUnitIn_isSome unitTable e ⟨USEC_PER_SEC, by simp [unitTable]⟩

lemma parseTermC_ne_unknownUnit (p : List Char) :
    parseTermC p ≠ .error .unknownUnit := by
  simp only [parseTermC]
  split
  · simp
  split
  · simp
  split
  · rename_i b heq
    split
    · simp
    split
    · simp
    split
    · simp
    have hs := findUnit_isSome (List.dropWhile isWS4 (strtollM b).rest)
    split
    · simp
    · rename_i hfu
      rw [hfu] at hs
      simp at hs
  · split
    · simp
    · have hs := findUnit_isSome (List.dropWhile isWS4 (strtollM p).rest)
      split
      · simp
      · rename_i hfu
        rw [hfu] at hs
        simp at hs

lemma parseSecGo_ne_unknownUnit (fuel : Nat) :
    ∀ (p : List Char) (something : Bool) (r : Nat),
      parseSecGo fuel p something r ≠ .error .unknownUnit := by
  induction fuel with
  | zero =>
    intro p something r
    simp [parseSecGo]
  | succ n ih =>
    intro p something r
    simp only [parseSecGo]
    by_cases hq : (List.dropWhile isWS4 p) = []
    · simp only [if_pos hq]
      split_ifs <;> simp
    · simp only [if_neg hq]
      cases ht : parseTermC (List.dropWhile isWS4 p) with
      | error e =>
        have h2 := parseTermC_ne_unknownUnit (List.dropWhile isWS4 p)
        rw [ht] at h2
        simpa using h2
      | ok t => simpa using ih t.rest true _

/-- Claim C10: because the unit table ends with the empty suffix, which
is a literal prefix of every remaining text, the unit lookup always finds
a match; the unrecognized-unit error branch after the loop is
unreachable, and an unknown unit suffix such as "5x" is consumed as
5 seconds followed by a failed integer parse of "x", reported as the
invalid-syntax error `-EINVAL`, never as an unknown-unit error. -/
theorem C10_unknown_unit_unreachable :
    (∀ (e : List Char), (findUnit e).isSome) ∧
    (∀ (cs : List Char), parse_sec cs ≠ .error .unknownUnit) ∧
    parse_sec ("5x".data) = .error .invalidNoDigits ∧
    errnoSec .invalidNoDigits = -22 :=
  ⟨fun e => findUnit_isSome e,
   fun cs => parseSecGo_ne_unknownUnit (cs.length + 1) cs false 0,
   by decide, by decide⟩

/-- Claim C9 counterexample: a leading plus sign is accepted by the
underlying conversion ("+5s" parses as 5 seconds), and a term with no
digits before a decimal point is not rejected: ".5h" parses as half an
hour, 1 800 000 000 microseconds, instead of failing with an
invalid-syntax error as the claim states. -/
theorem C9_cex :
    parse_sec ("+5s".data) = .ok 5000000 ∧
    parse_sec (".5h".data) = .ok 1800000000 ∧
    (∀ (e : SecErr), parse_sec (".5h".data) ≠ .error e) := by
  refine ⟨by decide, by decide, ?_⟩
  intro e
  cases e <;> decide

/-- Claim C9 (amended): a leading minus sign is rejected through the
negative-result range check, so "-5s" fails with `-ERANGE`; a leading
plus sign is accepted by `strtoll`, so "+5s" parses as 5 seconds; a
position with no integer digits fails with the invalid-syntax error
`-EINVAL` only when the next character is not a decimal point, while
".5h" takes integer part 0 and parses as 1 800 000 000 microseconds. -/
theorem C9_sign_and_digits :
    parse_sec ("-5s".data) = .error .negativeInt ∧
    errnoSec .negativeInt = -34 ∧
    parse_sec ("+5s".data) = .ok 5000000 ∧
    parse_sec (".5h".data) = .ok 1800000000 ∧
    parse_sec ("x".data) = .error .invalidNoDigits ∧
    errnoSec .invalidNoDigits = -22 :=
  ⟨by decide, by decide, by decide, by decide, by decide, by decide⟩

/-- Claim C2 counterexample: for "30000000000000y" the multiplication of
the integer part by the year factor exceeds the unsigned 64-bit range,
yet `parse_sec` returns the wrapped-around (mod 2 ^ 64) total instead of
an out-of-range error. -/
theorem C2_cex :
    P64 ≤ 30000000000000 * USEC_PER_YEAR ∧
    parse_sec ("30000000000000y".data) =
      .ok ((30000000000000 * USEC_PER_YEAR) % P64) ∧
    (30000000000000 * USEC_PER_YEAR) % P64 ≠ 30000000000000 * USEC_PER_YEAR :=
  ⟨by decide, by decide, by decide⟩

/-- Claim C2 (amended): only overflow inside the integer conversion
itself (a digit run exceeding the signed 64-bit range) is reported as
out of range (`-ERANGE`); the multiplication of a term by its unit
factor and the addition into the running total are computed modulo
2 ^ 64 and wrap silently. -/
theorem C2_overflow_behavior :
    parse_sec ("99999999999999999999s".data) = .error .overflowInt ∧
    errnoSec .overflowInt = -34 ∧
    P64 ≤ 20000000000001 * USEC_PER_YEAR ∧
    parse_sec ("20000000000001y".data) =
      .ok ((20000000000001 * USEC_PER_YEAR) % P64) :=
  ⟨by decide, by decide, by decide, by decide⟩

/-! Decimal rendering of numbers, used to quantify over all valid
duration strings in the statement about `parse_sec`'s term sum. -/

def digitChar (m : Nat) : Char :=
  match m with
  | 0 => '0'
  | 1 => '1'
  | 2 => '2'
  | 3 => '3'
  | 4 => '4'
  | 5 => '5'
  | 6 => '6'
  | 7 => '7'
  | 8 => '8'
  | _ => '9'

def natCharsAux : Nat → Nat → List Char → List Char
  | 0, _, acc => acc
  | fuel + 1, n, acc =>
    if n < 10 then digitChar n :: acc
    else natCharsAux fuel (n / 10) (digitChar (n % 10) :: acc)

/-- The decimal digit string of `n`, most significant digit first. -/
def natChars (n : Nat) : List Char := natCharsAux (n + 1) n []

lemma digitChar_isDigit (m : Nat) : isDigitC (digitChar m) = true := by
  simp only [digitChar]
  split <;> decide

lemma digitVal_digitChar (m : Nat) (h : m < 10) : digitVal (digitChar m) = m := by
  interval_cases m <;> decide

lemma natCharsAux_append (fuel n : Nat) (acc : List Char) :
    natCharsAux fuel n acc = natCharsAux fuel n [] ++ acc := by
  induction fuel generalizing n acc with
  | zero => simp [natCharsAux]
  | succ f ih =>
    simp only [natCharsAux]
    split_ifs
    · simp
    · rw [ih (n / 10) (digitChar (n % 10) :: acc), ih (n / 10) [digitChar (n % 10)]]
      simp

lemma natCharsAux_all_digits (fuel n : Nat) :
    ∀ c ∈ natCharsAux fuel n [], isDigitC c = true := by
  induction fuel generalizing n with
  | zero => simp [natCharsAux]
  | succ f ih =>
    intro c hc
    simp only [natCharsAux] at hc
    by_cases h : n < 10
    · rw [if_pos h] at hc
      simp at hc
      rw [hc]
      exact digitChar_isDigit n
    · rw [if_neg h, natCharsAux_append] at hc
      rcases List.mem_append.mp hc with h1 | h1
      · exact ih (n / 10) c h1
      · simp at h1
        rw [h1]
        exact digitChar_isDigit (n % 10)

lemma natChars_all_digits (n : Nat) : ∀ c ∈ natChars n, isDigitC c = true :=
  natCharsAux_all_digits (n + 1) n

lemma natCharsAux_value (fuel : Nat) :
    ∀ (n : Nat) (a : Nat), n < 10 ^ fuel →
      (natCharsAux fuel n []).foldl (fun a c => a * 10 + digitVal c) a =
        a * 10 ^ (natCharsAux fuel n []).length + n := by
  induction fuel with
  | zero => intro n a h; interval_cases n; simp [natCharsAux]
  | succ f ih =>
    intro n a h
    simp only [natCharsAux]
    by_cases hn : n < 10
    · rw [if_pos hn]
      simp [List.foldl, digitVal_digitChar n hn]
    · rw [if_neg hn, natCharsAux_append]
      have hdiv : n / 10 < 10 ^ f := by
        have h10 : 0 < 10 := by norm_num
        rw [Nat.div_lt_iff_lt_mul h10]
        calc n < 10 ^ (f + 1) := h
        _ = 10 ^ f * 10 := by ring
      rw [List.foldl_append, ih (n / 10) a hdiv]
      simp only [List.foldl, List.length_append, List.length_cons, List.length_nil]
      rw [digitVal_digitChar (n % 10) (Nat.mod_lt n (by norm_num))]
      have hmod := Nat.div_add_mod n 10
      calc (a * 10 ^ (natCharsAux f (n / 10) []).length + n / 10) * 10 + n % 10
          = a * (10 ^ (natCharsAux f (n / 10) []).length * 10) +
            (10 * (n / 10) + n % 10) := by ring
        _ = a * 10 ^ ((natCharsAux f (n / 10) []).length + 1) + n := by
            rw [← pow_succ, hmod]

lemma lt_ten_pow_succ (n : Nat) : n < 10 ^ (n + 1) := by
  have h1 : n < 10 ^ n := Nat.lt_pow_self (by norm_num) n
  have h2 : (10 : Nat) ^ n ≤ 10 ^ (n + 1) := Nat.pow_le_pow_right (by norm_num) (by omega)
  omega

lemma natChars_value (n : Nat) :
    digitsToNat (natChars n) = n := by
  have := natCharsAux_value (n + 1) n 0 (lt_ten_pow_succ n)
  simpa [digitsToNat, natChars] using this

lemma natCharsAux_ne_nil (fuel n : Nat) (h : 0 < fuel) :
    natCharsAux fuel n [] ≠ [] := by
  cases fuel with
  | zero => omega
  | succ f =>
    simp only [natCharsAux]
    split_ifs
    · simp
    · rw [natCharsAux_append]
      simp

lemma natChars_ne_nil (n : Nat) : natChars n ≠ [] :=
  natCharsAux_ne_nil (n + 1) n (by omega)

lemma natCharsAux_length_le (fuel : Nat) :
    ∀ (n k : Nat), 1 ≤ k → n < 10 ^ k → n < 10 ^ fuel →
      (natCharsAux fuel n []).length ≤ k := by
  induction fuel with
  | zero => intro n k h1 h2 h3; simp [natCharsAux]
  | succ f ih =>
    intro n k h1 h2 h3
    simp only [natCharsAux]
    by_cases hn : n < 10
    · rw [if_pos hn]
      simpa using h1
    · rw [if_neg hn, natCharsAux_append]
      have hk2 : 2 ≤ k := by
        by_contra hc
        have hk1 : k = 1 := by omega
        rw [hk1] at h2
        simp at h2
        omega
      have hdiv1 : n / 10 < 10 ^ (k - 1) := by
        have h10 : 0 < 10 := by norm_num
        rw [Nat.div_lt_iff_lt_mul h10]
        have : 10 ^ (k - 1) * 10 = 10 ^ k := by
          rw [← pow_succ]
          congr 1
          omega
        omega
      have hdiv2 : n / 10 < 10 ^ f := by
        have h10 : 0 < 10 := by norm_num
        rw [Nat.div_lt_iff_lt_mul h10]
        calc n < 10 ^ (f + 1) := h3
        _ = 10 ^ f * 10 := by ring
      have := ih (n / 10) (k - 1) (by omega) hdiv1 hdiv2
      simp only [List.length_append, List.length_cons, List.length_nil]
      omega

lemma natChars_length_le (n k : Nat) (h1 : 1 ≤ k) (h2 : n < 10 ^ k) :
    (natChars n).length ≤ k :=
  natCharsAux_length_le (n + 1) n k h1 h2 (lt_ten_pow_succ n)

lemma takeWhile_all_append (f : Char → Bool) (A rest : List Char)
    (hA : ∀ c ∈ A, f c = true)
    (hr : rest = [] ∨ ∃ d r', rest = d :: r' ∧ f d = false) :
    (A ++ rest).takeWhile f = A ∧ (A ++ rest).dropWhile f = rest := by
  induction A with
  | nil =>
    rcases hr with rfl | ⟨d, r', rfl, hd⟩
    · simp
    · simp [List.takeWhile, List.dropWhile, hd]
  | cons c t ih =>
    have hc : f c = true := hA c (by simp)
    have ht : ∀ x ∈ t, f x = true := fun x hx => hA x (by simp [hx])
    obtain ⟨ih1, ih2⟩ := ih ht
    simp [List.takeWhile, List.dropWhile, hc, ih1, ih2]

lemma isDigit_not_sp (c : Char) (h : isDigitC c = true) : isSp6 c = false := by
  simp [isDigitC] at h
  simp [isSp6]
  omega

lemma isDigit_not_ws4 (c : Char) (h : isDigitC c = true) : isWS4 c = false := by
  simp [isDigitC] at h
  simp [isWS4]
  omega

lemma isDigit_ne_signs (c : Char) (h : isDigitC c = true) : c ≠ '-' ∧ c ≠ '+' := by
  simp [isDigitC] at h
  constructor <;> intro hc <;> rw [hc] at h <;> simp at h <;> omega

lemma dropWhile_of_head_false (f : Char → Bool) (c : Char) (t : List Char)
    (h : f c = false) : (c :: t).dropWhile f = c :: t := by
  simp [List.dropWhile, h]

/-- On an all-digit run followed by a non-digit (or nothing), the
`strtoll` model converts exactly the run. -/
lemma strtollM_digits (A rest : List Char) (hA0 : A ≠ [])
    (hAd : ∀ c ∈ A, isDigitC c = true)
    (hr : rest = [] ∨ ∃ d r', rest = d :: r' ∧ isDigitC d = false)
    (hmax : digitsToNat A ≤ LLONG_MAX) :
    strtollM (A ++ rest) = ⟨(digitsToNat A : Int), rest, false, true⟩ := by
  obtain ⟨c, t, rfl⟩ : ∃ c t, A = c :: t := by
    cases A with
    | nil => exact absurd rfl hA0
    | cons c t => exact ⟨c, t, rfl⟩
  have hc : isDigitC c = true := hAd c (by simp)
  have hdw : List.dropWhile isSp6 ((c :: t) ++ rest) = (c :: t) ++ rest := by
    have := isDigit_not_sp c hc
    simp [List.dropWhile, this]
  have hsg : splitSign ((c :: t) ++ rest) = (false, (c :: t) ++ rest) := by
    obtain ⟨h1, h2⟩ := isDigit_ne_signs c hc
    simp [splitSign, h1, h2]
  obtain ⟨htw, hdr⟩ := takeWhile_all_append isDigitC (c :: t) rest hAd hr
  simp only [strtollM, hdw, hsg, htw, hdr]
  rw [if_neg (by simp)]
  simp [Nat.not_lt.mpr hmax]

/-! Boolean prefix-order facts used to locate unit-table entries. -/

lemma isPrefixOf_append_self (a r : List Char) : a.isPrefixOf (a ++ r) = true := by
  induction a with
  | nil => simp [List.isPrefixOf]
  | cons c t ih => simpa [List.isPrefixOf] using ih

lemma isPrefixOf_rfl (a : List Char) : a.isPrefixOf a = true := by
  have := isPrefixOf_append_self a []
  simpa using this

lemma isPrefixOf_append_cases (s a r : List Char) (h : s.isPrefixOf (a ++ r) = true) :
    s.isPrefixOf a = true ∨
    (a.isPrefixOf s = true ∧ (s.drop a.length).isPrefixOf r = true) := by
  induction a generalizing s with
  | nil =>
    right
    simpa [List.isPrefixOf] using h
  | cons c t ih =>
    cases s with
    | nil => left; simp [List.isPrefixOf]
    | cons d u =>
      simp only [List.cons_append, List.isPrefixOf, Bool.and_eq_true, beq_iff_eq] at h ⊢
      obtain ⟨rfl, h2⟩ := h
      rcases ih u h2 with h3 | h3
      · left
        exact ⟨rfl, h3⟩
      · right
        refine ⟨⟨rfl, h3.1⟩, ?_⟩
        simpa using h3.2

lemma isPrefixOf_length_le (s a : List Char) (h : s.isPrefixOf a = true) :
    s.length ≤ a.length := by
  induction s generalizing a with
  | nil => simp
  | cons c t ih =>
    cases a with
    | nil => simp [List.isPrefixOf] at h
    | cons d u =>
      simp only [List.isPrefixOf, Bool.and_eq_true] at h
      have := ih u h.2
      simpa using this

lemma isPrefixOf_eq_of_le (s a : List Char) (h : s.isPrefixOf a = true)
    (hl : a.length ≤ s.length) : s = a := by
  induction s generalizing a with
  | nil =>
    cases a with
    | nil => rfl
    | cons d u => simp at hl
  | cons c t ih =>
    cases a with
    | nil => simp [List.isPrefixOf] at h
    | cons d u =>
      simp only [List.isPrefixOf, Bool.and_eq_true, beq_iff_eq] at h
      obtain ⟨rfl, h2⟩ := h
      rw [ih u h2 (by simpa using hl)]

/-- Suffix of the `i`-th unit table entry. -/
def sufAt (i : Nat) : List Char := (unitTable.getD i ([], 0)).1

/-- Microsecond factor of the `i`-th unit table entry. -/
def usecAt (i : Nat) : Nat := (unitTable.getD i ([], 0)).2

lemma table_no_early_pre :
    ∀ i, i < 27 → ∀ p ∈ unitTable.take i, p.1.isPrefixOf (sufAt i) = false := by decide

lemma table_chars_ok :
    ∀ p ∈ unitTable, ∀ c ∈ p.1, isWS4 c = false ∧ isDigitC c = false ∧ c ≠ '.' := by decide

lemma table_take27_ne_nil : ∀ p ∈ unitTable.take 27, p.1 ≠ [] := by decide

lemma isPrefixOf_nil_eq (s : List Char) (h : s.isPrefixOf [] = true) : s = [] := by
  cases s with
  | nil => rfl
  | cons c t => simp [List.isPrefixOf] at h

lemma isPrefixOf_cons_head (c d : Char) (u r : List Char)
    (h : (c :: u).isPrefixOf (d :: r) = true) : c = d := by
  simp only [List.isPrefixOf, Bool.and_eq_true, beq_iff_eq] at h
  exact h.1

lemma findUnitIn_skip (pre rows : List (List Char × Nat)) (target : List Char)
    (h : ∀ p ∈ pre, p.1.isPrefixOf target = false) :
    findUnitIn (pre ++ rows) target = findUnitIn rows target := by
  induction pre with
  | nil => simp
  | cons hd tl ih =>
    obtain ⟨s, u⟩ := hd
    have hs : s.isPrefixOf target = false := h (s, u) (by simp)
    simp only [List.cons_append, findUnitIn, hs]
    exact ih (fun p hp => h p (by simp [hp]))

lemma no_early_match (i : Nat) (hi : i < 27) (rest : List Char)
    (hr : rest = [] ∨ ∃ r', rest = ' ' :: r') :
    ∀ p ∈ unitTable.take i, p.1.isPrefixOf (sufAt i ++ rest) = false := by
  intro p hp
  by_contra hc
  have hc' : p.1.isPrefixOf (sufAt i ++ rest) = true := by
    revert hc
    cases p.1.isPrefixOf (sufAt i ++ rest) <;> simp
  have hG1 := table_no_early_pre i hi p hp
  have hmem : p ∈ unitTable := List.mem_of_mem_take hp
  have hG2 := table_chars_ok p hmem
  rcases isPrefixOf_append_cases p.1 (sufAt i) rest hc' with h1 | ⟨h2, h3⟩
  · rw [h1] at hG1
    exact Bool.noConfusion hG1
  · have heqcase : p.1.drop (sufAt i).length = [] → False := by
      intro hd
      have hlen : p.1.length ≤ (sufAt i).length := by
        have := List.drop_eq_nil_iff.mp hd
        omega
      have : sufAt i = p.1 := isPrefixOf_eq_of_le (sufAt i) p.1 h2 hlen
      rw [← this] at hG1
      rw [isPrefixOf_rfl] at hG1
      exact Bool.noConfusion hG1
    cases hd : p.1.drop (sufAt i).length with
    | nil => exact heqcase hd
    | cons c u =>
      rw [hd] at h3
      rcases hr with rfl | ⟨r', rfl⟩
      · simp [List.isPrefixOf] at h3
      · have hcsp : c = ' ' := isPrefixOf_cons_head c ' ' u r' h3
        have hcin : c ∈ p.1 := by
          have hsub := List.drop_subset (sufAt i).length p.1
          rw [hd] at hsub
          exact hsub (by simp)
        have := (hG2 c hcin).1
        rw [hcsp] at this
        exact Bool.noConfusion this

lemma unitTable_split (i : Nat) (hi : i < 28) :
    unitTable = unitTable.take i ++ (sufAt i, usecAt i) :: unitTable.drop (i + 1) := by
  have hlen : i < unitTable.length := by
    have : unitTable.length = 28 := by decide
    omega
  have h1 := List.take_append_drop i unitTable
  have h2 : unitTable.drop i = unitTable[i] :: unitTable.drop (i + 1) :=
    List.drop_eq_getElem_cons hlen
  have h3 : (sufAt i, usecAt i) = unitTable[i] := by
    have hgd := List.getD_eq_getElem unitTable ([], 0) hlen
    simp only [sufAt, usecAt]
    rw [hgd]
  rw [h3, ← h2, h1]

/-- For a non-empty-suffix entry `i`, the unit lookup on the suffix
followed by a term separator (or end of input) yields exactly entry `i`. -/
lemma findUnit_at (i : Nat) (hi : i < 27) (rest : List Char)
    (hr : rest = [] ∨ ∃ r', rest = ' ' :: r') :
    findUnit (sufAt i ++ rest) = some (usecAt i, (sufAt i).length) := by
  rw [findUnit, unitTable_split i (by omega),
    findUnitIn_skip _ _ _ (no_early_match i hi rest hr)]
  simp [findUnitIn, isPrefixOf_append_self]

/-- On text starting with a digit (or empty text), only the final
empty-suffix entry matches: the "bare number is seconds" default. -/
lemma findUnit_empty (rest : List Char)
    (hr : rest = [] ∨ ∃ d r', rest = d :: r' ∧ isDigitC d = true) :
    findUnit rest = some (USEC_PER_SEC, 0) := by
  have hsplit : unitTable = unitTable.take 27 ++ [([], USEC_PER_SEC)] := by decide
  have hskip : ∀ p ∈ unitTable.take 27, p.1.isPrefixOf rest = false := by
    intro p hp
    have hne := table_take27_ne_nil p hp
    obtain ⟨c, t, hct⟩ : ∃ c t, p.1 = c :: t := by
      cases hx : p.1 with
      | nil => exact absurd hx hne
      | cons c t => exact ⟨c, t, rfl⟩
    have hmem : p ∈ unitTable := List.mem_of_mem_take hp
    have hcnd : isDigitC c = false := (table_chars_ok p hmem c (by rw [hct]; simp)).2.1
    rcases hr with rfl | ⟨d, r', rfl, hd⟩
    · rw [hct]
      simp [List.isPrefixOf]
    · rw [hct]
      by_contra hc
      have hc' : (c :: t).isPrefixOf (d :: r') = true := by
        revert hc
        cases (c :: t).isPrefixOf (d :: r') <;> simp
      have := isPrefixOf_cons_head c d t r' hc'
      rw [this, hd] at hcnd
      exact Bool.noConfusion hcnd
  rw [findUnit, hsplit, findUnitIn_skip _ _ _ hskip]
  simp [findUnitIn, List.isPrefixOf]

lemma table_mem : ∀ i, i < 28 → (sufAt i, usecAt i) ∈ unitTable := by decide

lemma sufAt_ne_nil : ∀ i, i < 27 → sufAt i ≠ [] := by decide

/-- One abstract `<int>[.<frac>]<unit>` term of a duration expression:
integer part, presence and value of the fraction with its digit count,
and the index of the unit in the table. -/
structure DTerm where
  l : Nat
  hasFrac : Bool
  z : Nat
  n : Nat
  ui : Nat

/-- A term a valid duration string can carry: the unit index is in the
table, the numbers fit the signed 64-bit conversion, the fraction has at
least one digit, fits its digit count, and its scaling by the unit
factor stays below 2 ^ 64. -/
def DTerm.valid (t : DTerm) : Prop :=
  t.ui < 28 ∧ t.l ≤ LLONG_MAX ∧
  (t.hasFrac = true → 1 ≤ t.n ∧ t.z ≤ LLONG_MAX ∧ t.z < 10 ^ t.n ∧ t.z * usecAt t.ui < P64) ∧
  (t.hasFrac = false → t.z = 0 ∧ t.n = 0)

/-- The exact microsecond value of one term:
`integer_part * unit + (fraction_part * unit) / 10 ^ fraction_digits`. -/
def DTerm.value (t : DTerm) : Nat :=
  t.l * usecAt t.ui + t.z * usecAt t.ui / 10 ^ t.n

instance (t : DTerm) : Decidable t.valid := by
  unfold DTerm.valid
  infer_instance

def sumTerms (ts : List DTerm) : Nat := (ts.map DTerm.value).sum

/-- The fraction digit run, left padded with zeros to `n` digits. -/
def padZeros (n z : Nat) : List Char :=
  List.replicate (n - (natChars z).length) '0' ++ natChars z

def renderDTerm (t : DTerm) : List Char :=
  natChars t.l ++ (if t.hasFrac then '.' :: padZeros t.n t.z else []) ++ sufAt t.ui

/-- A whitespace-separated sequence of rendered terms. -/
def renderDTerms : List DTerm → List Char
  | [] => []
  | [t] => renderDTerm t
  | t :: ts => renderDTerm t ++ ' ' :: renderDTerms ts

lemma divTen_eq (n : Nat) : ∀ (k : Nat), divTen k n = k / 10 ^ n := by
  induction n with
  | zero => intro k; simp [divTen]
  | succ m ih =>
    intro k
    simp only [divTen]
    rw [ih (k / 10), Nat.div_div_eq_div_mul]
    congr 1
    rw [pow_succ]
    ring

lemma padZeros_all_digits (n z : Nat) : ∀ c ∈ padZeros n z, isDigitC c = true := by
  intro c hc
  rcases List.mem_append.mp hc with h | h
  · rw [List.eq_of_mem_replicate h]
    decide
  · exact natChars_all_digits z c h

lemma padZeros_ne_nil (n z : Nat) : padZeros n z ≠ [] := by
  simp [padZeros, natChars_ne_nil z]

lemma padZeros_length (n z : Nat) (h1 : 1 ≤ n) (h2 : z < 10 ^ n) :
    (padZeros n z).length = n := by
  have := natChars_length_le z n h1 h2
  simp [padZeros]
  omega

lemma foldl_replicate_zero (k a : Nat) :
    (List.replicate k '0').foldl (fun a c => a * 10 + digitVal c) a = a * 10 ^ k := by
  induction k generalizing a with
  | zero => simp
  | succ m ih =>
    simp only [List.replicate, List.foldl]
    rw [ih]
    have hd : digitVal '0' = 0 := by decide
    rw [hd, pow_succ]
    ring

lemma padZeros_value (n z : Nat) : digitsToNat (padZeros n z) = z := by
  simp only [padZeros, digitsToNat, List.foldl_append, foldl_replicate_zero]
  have := natCharsAux_value (z + 1) z 0 (lt_ten_pow_succ z)
  simpa [natChars] using this

/-- Locating the unit of a rendered term: the remaining text after the
suffix is either empty or a separator followed by the next term's digits,
and the lookup returns exactly the term's table entry. -/
lemma unitLookup (ui : Nat) (hui : ui < 28) (rest : List Char)
    (hrest : rest = [] ∨ ∃ d r'', rest = ' ' :: d :: r'' ∧ isDigitC d = true) :
    ∃ rest₂,
      findUnit (List.dropWhile isWS4 (sufAt ui ++ rest)) =
        some (usecAt ui, (sufAt ui).length) ∧
      (List.dropWhile isWS4 (sufAt ui ++ rest)).drop (sufAt ui).length = rest₂ ∧
      List.dropWhile isWS4 rest₂ = List.dropWhile isWS4 rest := by
  by_cases h27 : ui < 27
  · obtain ⟨c, u', hcu⟩ : ∃ c u', sufAt ui = c :: u' := by
      cases hx : sufAt ui with
      | nil => exact absurd hx (sufAt_ne_nil ui h27)
      | cons c u' => exact ⟨c, u', rfl⟩
    have hmem : (sufAt ui, usecAt ui) ∈ unitTable := table_mem ui hui
    have hcprops := table_chars_ok _ hmem c (by rw [hcu]; simp)
    have hdw : List.dropWhile isWS4 (sufAt ui ++ rest) = sufAt ui ++ rest := by
      rw [hcu]
      simp [List.dropWhile_cons, hcprops.1]
    have hfa := findUnit_at ui h27 rest (by
      rcases hrest with rfl | ⟨d, r'', rfl, _⟩
      · exact Or.inl rfl
      · exact Or.inr ⟨d :: r'', rfl⟩)
    refine ⟨rest, ?_, ?_, rfl⟩
    · rw [hdw]
      exact hfa
    · rw [hdw]
      exact List.drop_left (sufAt ui) rest
  · have h27' : ui = 27 := by omega
    subst h27'
    have hs : sufAt 27 = [] := by decide
    have hu : usecAt 27 = USEC_PER_SEC := by decide
    rw [hs, hu]
    simp only [List.nil_append, List.length_nil, List.drop_zero]
    rcases hrest with rfl | ⟨d, r'', rfl, hd⟩
    · exact ⟨[], findUnit_empty [] (Or.inl rfl), by simp, by simp⟩
    · have hdw : List.dropWhile isWS4 (' ' :: d :: r'') = d :: r'' := by
        have h1 : isWS4 ' ' = true := by decide
        have h2 : isWS4 d = false := isDigit_not_ws4 d hd
        simp [List.dropWhile_cons, h1, h2]
      refine ⟨d :: r'', ?_, ?_, ?_⟩
      · rw [hdw]
        exact findUnit_empty (d :: r'') (Or.inr ⟨d, r'', rfl, hd⟩)
      · rw [hdw]
      · rw [hdw]
        have h2 : isWS4 d = false := isDigit_not_ws4 d hd
        simp [List.dropWhile_cons, h2, hdw]

/-- Parsing one rendered term: the loop body consumes exactly the term
and yields its components. -/
lemma parseTermC_render (t : DTerm) (rest : List Char) (hv : t.valid)
    (hrest : rest = [] ∨ ∃ d r'', rest = ' ' :: d :: r'' ∧ isDigitC d = true) :
    ∃ rest₂, parseTermC (renderDTerm t ++ rest) =
        .ok ⟨t.l, t.z, t.n, usecAt t.ui, rest₂⟩ ∧
      List.dropWhile isWS4 rest₂ = List.dropWhile isWS4 rest := by
  obtain ⟨hui, hlmax, hfrac, hnofrac⟩ := hv
  obtain ⟨rest₂, hfind, hdropr, hdw2⟩ := unitLookup t.ui hui rest hrest
  have hY : sufAt t.ui ++ rest = [] ∨
      ∃ d r', sufAt t.ui ++ rest = d :: r' ∧ isDigitC d = false ∧ d ≠ '.' := by
    by_cases h27 : t.ui < 27
    · obtain ⟨c, u', hcu⟩ : ∃ c u', sufAt t.ui = c :: u' := by
        cases hx : sufAt t.ui with
        | nil => exact absurd hx (sufAt_ne_nil t.ui h27)
        | cons c u' => exact ⟨c, u', rfl⟩
      have hcprops := table_chars_ok _ (table_mem t.ui hui) c (by rw [hcu]; simp)
      right
      exact ⟨c, u' ++ rest, by rw [hcu]; simp, hcprops.2.1, hcprops.2.2⟩
    · have h27' : t.ui = 27 := by omega
      have hs : sufAt t.ui = [] := by rw [h27']; decide
      rw [hs, List.nil_append]
      rcases hrest with rfl | ⟨d, r'', rfl, hd⟩
      · exact Or.inl rfl
      · exact Or.inr ⟨' ', d :: r'', rfl, by decide, by decide⟩
  have hY' : sufAt t.ui ++ rest = [] ∨
      ∃ d r', sufAt t.ui ++ rest = d :: r' ∧ isDigitC d = false := by
    rcases hY with h | ⟨d, r', h1, h2, _⟩
    · exact Or.inl h
    · exact Or.inr ⟨d, r', h1, h2⟩
  cases hF : t.hasFrac with
  | false =>
    obtain ⟨hz0, hn0⟩ := hnofrac hF
    have hrender : renderDTerm t ++ rest = natChars t.l ++ (sufAt t.ui ++ rest) := by
      simp [renderDTerm, hF, List.append_assoc]
    have hs1 := strtollM_digits (natChars t.l) (sufAt t.ui ++ rest)
      (natChars_ne_nil t.l) (natChars_all_digits t.l) hY'
      (by rw [natChars_value]; exact hlmax)
    refine ⟨rest₂, ?_, hdw2⟩
    rw [hrender]
    simp only [parseTermC, hs1]
    rw [if_neg (by simp)]
    rw [if_neg (by simp)]
    split
    · rename_i b heqY
      exfalso
      rcases hY with h | ⟨d, r', h1, h2, h3⟩
      · rw [h] at heqY
        exact List.noConfusion heqY
      · rw [h1] at heqY
        have : d = '.' := by
          have := List.head_eq_of_cons_eq heqY
          exact this
        exact h3 this
    · rw [if_neg (by simp)]
      rw [hfind]
      simp only [hdropr]
      rw [hz0, hn0]
      simp [natChars_value]
  | true =>
    obtain ⟨hn1, hzmax, hzlt, hzu⟩ := hfrac hF
    have hrender : renderDTerm t ++ rest =
        natChars t.l ++ ('.' :: (padZeros t.n t.z ++ (sufAt t.ui ++ rest))) := by
      simp [renderDTerm, hF, List.append_assoc]
    have hs1 := strtollM_digits (natChars t.l)
      ('.' :: (padZeros t.n t.z ++ (sufAt t.ui ++ rest)))
      (natChars_ne_nil t.l) (natChars_all_digits t.l)
      (Or.inr ⟨'.', _, rfl, by decide⟩)
      (by rw [natChars_value]; exact hlmax)
    have hs2 := strtollM_digits (padZeros t.n t.z) (sufAt t.ui ++ rest)
      (padZeros_ne_nil t.n t.z) (padZeros_all_digits t.n t.z) hY'
      (by rw [padZeros_value]; exact hzmax)
    refine ⟨rest₂, ?_, hdw2⟩
    rw [hrender]
    simp only [parseTermC, hs1]
    rw [if_neg (by simp)]
    rw [if_neg (by simp)]
    simp only [hs2]
    rw [if_neg (by simp)]
    rw [if_neg (by simp)]
    rw [if_neg (by simp)]
    rw [hfind]
    simp only [hdropr]
    have hlen : (padZeros t.n t.z ++ (sufAt t.ui ++ rest)).length -
        (sufAt t.ui ++ rest).length = t.n := by
      rw [List.length_append, padZeros_length t.n t.z hn1 hzlt]
      omega
    simp [hlen, natChars_value, padZeros_value]
    exact padZeros_length t.n t.z hn1 hzlt

lemma renderDTerm_head (t : DTerm) :
    ∃ d r', renderDTerm t = d :: r' ∧ isDigitC d = true := by
  obtain ⟨c, u, hcu⟩ : ∃ c u, natChars t.l = c :: u := by
    cases hx : natChars t.l with
    | nil => exact absurd hx (natChars_ne_nil t.l)
    | cons c u => exact ⟨c, u, rfl⟩
  have hd : isDigitC c = true := natChars_all_digits t.l c (by rw [hcu]; simp)
  refine ⟨c, u ++ ((if t.hasFrac then '.' :: padZeros t.n t.z else []) ++ sufAt t.ui), ?_, hd⟩
  simp [renderDTerm, hcu]

lemma renderDTerms_head (ts : List DTerm) (h : ts ≠ []) :
    ∃ d r', renderDTerms ts = d :: r' ∧ isDigitC d = true := by
  cases ts with
  | nil => exact absurd rfl h
  | cons t ts' =>
    obtain ⟨d, r', hdr, hd⟩ := renderDTerm_head t
    cases ts' with
    | nil => exact ⟨d, r', by simpa [renderDTerms] using hdr, hd⟩
    | cons a b =>
      refine ⟨d, r' ++ ' ' :: renderDTerms (a :: b), ?_, hd⟩
      simp [renderDTerms, hdr]

lemma dropWhile_render (ts : List DTerm) (h : ts ≠ []) :
    List.dropWhile isWS4 (renderDTerms ts) = renderDTerms ts := by
  obtain ⟨d, r', hdr, hd⟩ := renderDTerms_head ts h
  rw [hdr]
  simp [List.dropWhile_cons, isDigit_not_ws4 d hd]

lemma parseSecGo_done (fuel : Nat) (q : List Char) (r : Nat)
    (h : List.dropWhile isWS4 q = []) (hf : 0 < fuel) :
    parseSecGo fuel q true r = .ok r := by
  cases fuel with
  | zero => omega
  | succ f => simp [parseSecGo, h]

lemma sumTerms_cons (t : DTerm) (ts : List DTerm) :
    sumTerms (t :: ts) = t.value + sumTerms ts := by
  simp [sumTerms]

lemma valid_zu_lt (t : DTerm) (hv : t.valid) : t.z * usecAt t.ui < P64 := by
  obtain ⟨_, _, hfrac, hnofrac⟩ := hv
  cases hF : t.hasFrac with
  | true => exact (hfrac hF).2.2.2
  | false =>
    rw [(hnofrac hF).1]
    simp [P64]

/-- One step of the accumulation loop on a rendered term sequence. -/
lemma parseSecGo_render (ts : List DTerm) : ts ≠ [] →
    ∀ (fuel : Nat) (p : List Char) (r : Nat) (sth : Bool),
      (∀ t ∈ ts, t.valid) →
      r + sumTerms ts < P64 →
      List.dropWhile isWS4 p = renderDTerms ts →
      p.length < fuel →
      parseSecGo fuel p sth r = .ok (r + sumTerms ts) := by
  induction ts with
  | nil => intro h; exact absurd rfl h
  | cons t ts' ih =>
    intro _ fuel p r sth hvalid hsum hdw hfuel
    obtain ⟨hd, hr', hhead, hdig⟩ := renderDTerms_head (t :: ts') (by simp)
    have hvt : t.valid := hvalid t (by simp)
    have hne : renderDTerms (t :: ts') ≠ [] := by
      rw [hhead]
      simp
    -- split off the head term and the separator
    obtain ⟨rest, hsplit, hrest, hrestdw⟩ :
        ∃ rest, renderDTerms (t :: ts') = renderDTerm t ++ rest ∧
          (rest = [] ∨ ∃ d r'', rest = ' ' :: d :: r'' ∧ isDigitC d = true) ∧
          List.dropWhile isWS4 rest = renderDTerms ts' := by
      cases ts' with
      | nil => exact ⟨[], by simp [renderDTerms], Or.inl rfl, by simp [renderDTerms]⟩
      | cons a b =>
        obtain ⟨d2, r2, hdr2, hd2⟩ := renderDTerms_head (a :: b) (by simp)
        refine ⟨' ' :: renderDTerms (a :: b), by simp [renderDTerms], ?_, ?_⟩
        · right
          exact ⟨d2, r2, by rw [hdr2], hd2⟩
        · have h1 : isWS4 ' ' = true := by decide
          rw [hdr2]
          simp [List.dropWhile_cons, h1, isDigit_not_ws4 d2 hd2]
    obtain ⟨rest₂, hok, hdw2⟩ := parseTermC_render t rest hvt hrest
    have hok' : parseTermC (renderDTerms (t :: ts')) =
        .ok ⟨t.l, t.z, t.n, usecAt t.ui, rest₂⟩ := by
      rw [hsplit]
      exact hok
    cases fuel with
    | zero => omega
    | succ f =>
      have hplen : 1 ≤ p.length := by
        have h1 := dropWhile_len_le isWS4 p
        rw [hdw, hhead] at h1
        simp at h1
        omega
      have hrest₂len : rest₂.length < p.length := by
        have h1 := parseTermC_rest_lt (renderDTerms (t :: ts'))
          ⟨t.l, t.z, t.n, usecAt t.ui, rest₂⟩ hok'
        have h2 := dropWhile_len_le isWS4 p
        rw [hdw] at h2
        simp only [] at h1
        omega
      simp only [parseSecGo, hdw]
      rw [if_neg hne, hok']
      dsimp only
      -- the accumulated value of this term
      have hzu : t.z * usecAt t.ui < P64 := valid_zu_lt t hvt
      have hlu : t.l * usecAt t.ui ≤ t.value := Nat.le_add_right _ _
      have hval_le : t.value ≤ sumTerms (t :: ts') := by
        rw [sumTerms_cons]
        omega
      have hlu_lt : t.l * usecAt t.ui < P64 := by omega
      have hstep :
          (r + t.l * usecAt t.ui % P64 + divTen (t.z * usecAt t.ui % P64) t.n) % P64 =
            r + t.value := by
        rw [Nat.mod_eq_of_lt hlu_lt, Nat.mod_eq_of_lt hzu, divTen_eq]
        have : r + t.l * usecAt t.ui + t.z * usecAt t.ui / 10 ^ t.n = r + t.value := by
          simp [DTerm.value]
          omega
        rw [this]
        exact Nat.mod_eq_of_lt (by omega)
      rw [hstep]
      cases hts' : ts' with
      | nil =>
        have hdwr : List.dropWhile isWS4 rest₂ = [] := by
          rw [hdw2]
          rw [hts'] at hrestdw
          simpa [renderDTerms] using hrestdw
        rw [parseSecGo_done f rest₂ (r + t.value) hdwr (by omega)]
        simp [sumTerms]
      | cons a b =>
        have hrec := ih (by rw [hts']; simp) f rest₂ (r + t.value) true
          (fun x hx => hvalid x (List.mem_cons_of_mem t hx))
          (by rw [sumTerms_cons] at hsum; omega)
          (by rw [hdw2, hrestdw])
          (by omega)
        rw [hrec, sumTerms_cons, Nat.add_assoc, hts']

/-- Claim C1 (amended): for every non-empty sequence of valid
`<int>[.<frac>]<unit>` terms whose literals fit the signed 64-bit
conversion, whose fraction scaling stays below 2 ^ 64 and whose total
stays below 2 ^ 64, `parse_sec` on the rendered whitespace-separated
string returns the exact sum over the terms of
`integer_part * unit + (fraction_part * unit) / 10 ^ fraction_digits`;
moreover the code's repeated truncating division by ten equals the
single division by `10 ^ fraction_digits`.  (Without the 2 ^ 64 bounds
the multiplication and the accumulation wrap, see the counterexample.) -/
theorem C1_duration_term_sum (ts : List DTerm) (h1 : ts ≠ [])
    (h2 : ∀ t ∈ ts, t.valid) (h3 : sumTerms ts < P64) :
    parse_sec (renderDTerms ts) = .ok (sumTerms ts) ∧
    (∀ (k m : Nat), divTen k m = k / 10 ^ m) := by
  constructor
  · have h := parseSecGo_render ts h1 ((renderDTerms ts).length + 1) (renderDTerms ts)
      0 false h2 (by simpa using h3) (dropWhile_render ts h1) (by omega)
    simpa [parse_sec] using h
  · intro k m
    exact divTen_eq m k

/-- Claim C1 witness: the term lists rendering to "1.5h" and "1m 30s"
satisfy the hypotheses, and the sums are the claimed 5 400 000 000 and
90 000 000 microseconds. -/
theorem C1_witness :
    (∀ t ∈ [(⟨1, true, 5, 1, 15⟩ : DTerm)], t.valid) ∧
    parse_sec ("1.5h".data) = .ok 5400000000 ∧
    parse_sec ("1m 30s".data) = .ok 90000000 := by
  refine ⟨by decide, ?_, ?_⟩
  · have h := (C1_duration_term_sum [⟨1, true, 5, 1, 15⟩]
      (by simp) (by decide) (by decide)).1
    have hr : renderDTerms [(⟨1, true, 5, 1, 15⟩ : DTerm)] = "1.5h".data := by decide
    have hs : sumTerms [(⟨1, true, 5, 1, 15⟩ : DTerm)] = 5400000000 := by decide
    rw [hr, hs] at h
    exact h
  · have h := (C1_duration_term_sum
      [⟨1, false, 0, 0, 11⟩, ⟨30, false, 0, 0, 3⟩] (by simp) (by decide) (by decide)).1
    have hr : renderDTerms [(⟨1, false, 0, 0, 11⟩ : DTerm), ⟨30, false, 0, 0, 3⟩] =
        "1m 30s".data := by decide
    have hs : sumTerms [(⟨1, false, 0, 0, 11⟩ : DTerm), ⟨30, false, 0, 0, 3⟩] =
        90000000 := by decide
    rw [hr, hs] at h
    exact h

/-- Claim C1 counterexample: for the syntactically valid duration string
"20000000000000y" the returned value is the product reduced modulo
2 ^ 64, not the sum of the terms' exact microsecond values. -/
theorem C1_cex :
    parse_sec ("20000000000000y".data) =
      .ok ((20000000000000 * USEC_PER_YEAR) % P64) ∧
    (20000000000000 * USEC_PER_YEAR) % P64 ≠ 20000000000000 * USEC_PER_YEAR :=
  ⟨by decide, by decide⟩

/-! The calendar model.  `strptime`, `localtime_r` and `mktime` are C
library collaborators, not code of this repository; per the spec they are
the "calendar decomposition" and "calendar normalization" interfaces.
They are modelled here as the proleptic Gregorian calendar in a fixed
zone (Howard Hinnant's civil-date algorithms); `/` and `%` on `Int` are
floor division and Euclidean remainder, which agree with the C idiom
`(y >= 0 ? y : y - 399) / 400` the reference algorithm uses to get floor
behaviour from C's truncating division. -/

/-- The broken-down time `struct tm` (fields as in C: `tm_year` is years
since 1900, `tm_mon` is 0-based). -/
structure Tm where
  tm_sec : Int
  tm_min : Int
  tm_hour : Int
  tm_mday : Int
  tm_mon : Int
  tm_year : Int
  tm_wday : Int
  tm_isdst : Int
deriving DecidableEq

/-- Modelled from the spec: calendar decomposition of a day count since
the epoch into (year, month 1-based, day). -/
def civilOfDays (days : Int) : Int × Int × Int :=
  let z := days + 719468
  let era := z / 146097
  let doe := z % 146097
  let yoe := (doe - doe / 1460 + doe / 36524 - doe / 146096) / 365
  let y := yoe + era * 400
  let doy := doe - (365 * yoe + yoe / 4 - yoe / 100)
  let mp := (5 * doy + 2) / 153
  let d := doy - (153 * mp + 2) / 5 + 1
  let m := mp + (if mp < 10 then 3 else -9)
  (y + (if m ≤ 2 then 1 else 0), m, d)

/-- Modelled from the spec: the day count since the epoch of a civil
date; linear in `d`, so out-of-range days roll over exactly as the
calendar-normalization interface requires. -/
def daysOfCivil (y m d : Int) : Int :=
  let y2 := y - (if m ≤ 2 then 1 else 0)
  let era := y2 / 400
  let yoe := y2 - era * 400
  let doy := (153 * (m + (if 2 < m then -3 else 9)) + 2) / 5 + d - 1
  let doe := yoe * 365 + yoe / 4 - yoe / 100 + doy
  era * 146097 + doe - 719468

set_option maxHeartbeats 12000000 in
lemma doy_bounds (doe c d1 e1 yoe : Int)
    (hdoe_b0 : 0 ≤ doe) (hdoe_b1 : doe < 146097)
    (hc : doe / 1460 = c) (hd1 : doe / 36524 = d1) (he1 : doe / 146096 = e1)
    (hcb0 : 0 ≤ c) (hcb1 : c ≤ 100)
    (hdb0 : 0 ≤ d1) (hdb1 : d1 ≤ 4)
    (hyoe : (doe - c + d1 - e1) / 365 = yoe) :
    0 ≤ doe - (365 * yoe + yoe / 4 - yoe / 100) ∧
      doe - (365 * yoe + yoe / 4 - yoe / 100) ≤ 365 := by
  constructor <;>
    (interval_cases c <;> first | omega | (interval_cases d1 <;> omega))

set_option maxHeartbeats 4000000 in
/-- Decomposition and recomposition are mutually inverse on day counts. -/
lemma daysOfCivil_civilOfDays (days : Int) :
    daysOfCivil (civilOfDays days).1 (civilOfDays days).2.1 (civilOfDays days).2.2 =
      days := by
  simp only [civilOfDays, daysOfCivil]
  obtain ⟨doe, hdoe, hdoe_b0, hdoe_b1⟩ :
      ∃ doe, (days + 719468) % 146097 = doe ∧ 0 ≤ doe ∧ doe < 146097 :=
    ⟨_, rfl, by omega, by omega⟩
  obtain ⟨era, hera⟩ : ∃ era, (days + 719468) / 146097 = era := ⟨_, rfl⟩
  simp only [hdoe, hera]
  obtain ⟨c, hc⟩ : ∃ c, doe / 1460 = c := ⟨_, rfl⟩
  obtain ⟨d1, hd1⟩ : ∃ d1, doe / 36524 = d1 := ⟨_, rfl⟩
  obtain ⟨e1, he1⟩ : ∃ e1, doe / 146096 = e1 := ⟨_, rfl⟩
  have hcb0 : 0 ≤ c := by omega
  have hcb1 : c ≤ 100 := by omega
  have hdb0 : 0 ≤ d1 := by omega
  have hdb1 : d1 ≤ 4 := by omega
  simp only [hc, hd1, he1]
  obtain ⟨yoe, hyoe, hyoe_b0, hyoe_b1⟩ :
      ∃ yoe, (doe - c + d1 - e1) / 365 = yoe ∧ 0 ≤ yoe ∧ yoe ≤ 399 :=
    ⟨_, rfl, by omega, by omega⟩
  simp only [hyoe]
  have hdoyb := doy_bounds doe c d1 e1 yoe hdoe_b0 hdoe_b1 hc hd1 he1
    hcb0 hcb1 hdb0 hdb1 hyoe
  obtain ⟨doy, hdoy, hdoy_b0, hdoy_b1⟩ :
      ∃ doy, doe - (365 * yoe + yoe / 4 - yoe / 100) = doy ∧ 0 ≤ doy ∧ doy ≤ 365 :=
    ⟨_, rfl, hdoyb.1, hdoyb.2⟩
  simp only [hdoy]
  obtain ⟨mp, hmp, hmp_b0, hmp_b1⟩ :
      ∃ mp, (5 * doy + 2) / 153 = mp ∧ 0 ≤ mp ∧ mp ≤ 11 :=
    ⟨_, rfl, by omega, by omega⟩
  simp only [hmp]
  clear hc hd1 he1 hcb0 hcb1 hdb0 hdb1 hyoe hmp hdoyb hdoy_b0 hdoy_b1 hdoe_b0 hdoe_b1
  split_ifs <;> interval_cases mp <;> omega

set_option maxHeartbeats 4000000 in
/-- The decomposed month is in 1..12 and the day in 1..31. -/
lemma civilOfDays_bounds (days : Int) :
    1 ≤ (civilOfDays days).2.1 ∧ (civilOfDays days).2.1 ≤ 12 ∧
    1 ≤ (civilOfDays days).2.2 ∧ (civilOfDays days).2.2 ≤ 31 := by
  simp only [civilOfDays]
  obtain ⟨doe, hdoe, hdoe_b0, hdoe_b1⟩ :
      ∃ doe, (days + 719468) % 146097 = doe ∧ 0 ≤ doe ∧ doe < 146097 :=
    ⟨_, rfl, by omega, by omega⟩
  simp only [hdoe]
  obtain ⟨c, hc⟩ : ∃ c, doe / 1460 = c := ⟨_, rfl⟩
  obtain ⟨d1, hd1⟩ : ∃ d1, doe / 36524 = d1 := ⟨_, rfl⟩
  obtain ⟨e1, he1⟩ : ∃ e1, doe / 146096 = e1 := ⟨_, rfl⟩
  have hcb0 : 0 ≤ c := by omega
  have hcb1 : c ≤ 100 := by omega
  have hdb0 : 0 ≤ d1 := by omega
  have hdb1 : d1 ≤ 4 := by omega
  simp only [hc, hd1, he1]
  obtain ⟨yoe, hyoe, hyoe_b0, hyoe_b1⟩ :
      ∃ yoe, (doe - c + d1 - e1) / 365 = yoe ∧ 0 ≤ yoe ∧ yoe ≤ 399 :=
    ⟨_, rfl, by omega, by omega⟩
  simp only [hyoe]
  have hdoyb := doy_bounds doe c d1 e1 yoe hdoe_b0 hdoe_b1 hc hd1 he1
    hcb0 hcb1 hdb0 hdb1 hyoe
  obtain ⟨doy, hdoy, hdoy_b0, hdoy_b1⟩ :
      ∃ doy, doe - (365 * yoe + yoe / 4 - yoe / 100) = doy ∧ 0 ≤ doy ∧ doy ≤ 365 :=
    ⟨_, rfl, hdoyb.1, hdoyb.2⟩
  simp only [hdoy]
  obtain ⟨mp, hmp, hmp_b0, hmp_b1⟩ :
      ∃ mp, (5 * doy + 2) / 153 = mp ∧ 0 ≤ mp ∧ mp ≤ 11 :=
    ⟨_, rfl, by omega, by omega⟩
  simp only [hmp]
  split_ifs <;> refine ⟨?_, ?_, ?_, ?_⟩ <;> interval_cases mp <;> omega

/-- Modelled from the spec: `localtime_r`, the calendar decomposition of
a `time_t` into a broken-down time (fixed zone, no DST). -/
def localtimeModel (x : Int) : Tm :=
  let days := x / 86400
  let rem := x % 86400
  let c := civilOfDays days
  { tm_sec := rem % 60
  , tm_min := rem % 3600 / 60
  , tm_hour := rem / 3600
  , tm_mday := c.2.2
  , tm_mon := c.2.1 - 1
  , tm_year := c.1 - 1900
  , tm_wday := (days + 4) % 7
  , tm_isdst := -1 }

/-- Modelled from the spec: the day count `mktime` normalizes a
broken-down time to, resolving month and day overflow by floor
division and linear extrapolation. -/
def mktimeDays (tm : Tm) : Int :=
  daysOfCivil (1900 + tm.tm_year + tm.tm_mon / 12) (tm.tm_mon % 12 + 1) tm.tm_mday

/-- Modelled from the spec: `mktime`, the calendar normalization of a
broken-down time to a `time_t`. -/
def mktimeSec (tm : Tm) : Int :=
  mktimeDays tm * 86400 + tm.tm_hour * 3600 + tm.tm_min * 60 + tm.tm_sec

/-- The weekday `mktime` stores into `tm_wday` (1970-01-01 was a
Thursday, day number 4). -/
def mktimeWday (tm : Tm) : Int := (mktimeDays tm + 4) % 7

/-- Normalizing an unmodified decomposition gives back the seconds. -/
lemma mktimeSec_localtimeModel (x : Int) : mktimeSec (localtimeModel x) = x := by
  have hm := civilOfDays_bounds (x / 86400)
  have hrt := daysOfCivil_civilOfDays (x / 86400)
  simp only [localtimeModel, mktimeSec, mktimeDays]
  have h1 : ((civilOfDays (x / 86400)).2.1 - 1) / 12 = 0 := by omega
  have h2 : ((civilOfDays (x / 86400)).2.1 - 1) % 12 + 1 = (civilOfDays (x / 86400)).2.1 := by
    omega
  rw [h1, h2]
  have h3 : 1900 + ((civilOfDays (x / 86400)).1 - 1900) + 0 = (civilOfDays (x / 86400)).1 := by
    omega
  rw [h3, hrt]
  omega

/-! The `strptime` grammars.  `strptime` is a C library collaborator;
modelled from the spec: each numeric field reads a maximal run of one
up to `width` digits and checks a range, literal separators match
exactly, and a white-space item skips any run of white space. -/

inductive NumFld where
  | fY4
  | fY2
  | fMon
  | fMday
  | fHour
  | fMin
  | fSec
deriving DecidableEq

inductive FmtItem where
  | num : NumFld → FmtItem
  | lit : Char → FmtItem
  | ws : FmtItem
deriving DecidableEq

def fldWidth : NumFld → Nat
  | .fY4 => 4
  | _ => 2

def fldLo : NumFld → Nat
  | .fMon => 1
  | .fMday => 1
  | _ => 0

def fldHi : NumFld → Nat
  | .fY4 => 9999
  | .fY2 => 99
  | .fMon => 12
  | .fMday => 31
  | .fHour => 23
  | .fMin => 59
  | .fSec => 61

/-- One numeric conversion: a maximal run of at most `w` digits, value
checked against `[lo, hi]`. -/
def parseNum (w lo hi : Nat) (cs : List Char) : Option (Nat × List Char) :=
  let ds := (cs.take w).takeWhile isDigitC
  if ds = [] then none
  else
    let v := digitsToNat ds
    if lo ≤ v ∧ v ≤ hi then some (v, cs.drop ds.length) else none

/-- Run a format against the input, collecting parsed field values;
succeeds only if every item matches (the caller separately requires the
rest to be empty). -/
def runFmt : List FmtItem → List Char → Option (List (NumFld × Nat) × List Char)
  | [], cs => some ([], cs)
  | .lit c :: f, cs =>
    match cs with
    | d :: cs' => if d = c then runFmt f cs' else none
    | [] => none
  | .ws :: f, cs => runFmt f (cs.dropWhile isSp6)
  | .num fld :: f, cs =>
    match parseNum (fldWidth fld) (fldLo fld) (fldHi fld) cs with
    | some (v, cs') =>
      match runFmt f cs' with
      | some (us, rest) => some ((fld, v) :: us, rest)
      | none => none
    | none => none

/-- How each conversion stores into the broken-down time (`%y` maps
0-68 to 2000-2068 and 69-99 to 1969-1999, `%Y`/`%m` subtract the C
biases). -/
def applyFld (tm : Tm) (fv : NumFld × Nat) : Tm :=
  match fv.1 with
  | .fY4 => {tm with tm_year := (fv.2 : Int) - 1900}
  | .fY2 => {tm with tm_year := if fv.2 < 69 then (fv.2 : Int) + 100 else (fv.2 : Int)}
  | .fMon => {tm with tm_mon := (fv.2 : Int) - 1}
  | .fMday => {tm with tm_mday := (fv.2 : Int)}
  | .fHour => {tm with tm_hour := (fv.2 : Int)}
  | .fMin => {tm with tm_min := (fv.2 : Int)}
  | .fSec => {tm with tm_sec := (fv.2 : Int)}

def applyFlds (tm : Tm) (us : List (NumFld × Nat)) : Tm := us.foldl applyFld tm

/-- The field adjustment the caller performs after a successful match
(lines 276, 283, 290, 297, 309, 316 of `timeutils.c`). -/
inductive PostAct where
  | keep
  | zsec
  | zhms
deriving DecidableEq

def applyPost (tm : Tm) : PostAct → Tm
  | .keep => tm
  | .zsec => {tm with tm_sec := 0}
  | .zhms => {tm with tm_sec := 0, tm_min := 0, tm_hour := 0}

/-- The nine grammars of lines 264-318, in source order.  The last,
`"%Y%m%d%H%M%S"`, zeroes the seconds after matching — the quirk noted in
the source is preserved. -/
def grammars : List (List FmtItem × PostAct) :=
  [ ([.num .fY2, .lit '-', .num .fMon, .lit '-', .num .fMday, .ws,
      .num .fHour, .lit ':', .num .fMin, .lit ':', .num .fSec], .keep)
  , ([.num .fY4, .lit '-', .num .fMon, .lit '-', .num .fMday, .ws,
      .num .fHour, .lit ':', .num .fMin, .lit ':', .num .fSec], .keep)
  , ([.num .fY2, .lit '-', .num .fMon, .lit '-', .num .fMday, .ws,
      .num .fHour, .lit ':', .num .fMin], .zsec)
  , ([.num .fY4, .lit '-', .num .fMon, .lit '-', .num .fMday, .ws,
      .num .fHour, .lit ':', .num .fMin], .zsec)
  , ([.num .fY2, .lit '-', .num .fMon, .lit '-', .num .fMday], .zhms)
  , ([.num .fY4, .lit '-', .num .fMon, .lit '-', .num .fMday], .zhms)
  , ([.num .fHour, .lit ':', .num .fMin, .lit ':', .num .fSec], .keep)
  , ([.num .fHour, .lit ':', .num .fMin], .zsec)
  , ([.num .fY4, .num .fMon, .num .fMday, .num .fHour, .num .fMin, .num .fSec], .zsec) ]

/-- Lines 263-318: try each grammar in order, each attempt starting from
the seed; a grammar is accepted only when it consumes the entire
remaining text (`k && *k == 0`). -/
def tryGrammars (tm : Tm) : List (List FmtItem × PostAct) → List Char → Option Tm
  | [], _ => none
  | (g, post) :: gs, s =>
    match runFmt g s with
    | some (us, []) => some (applyPost (applyFlds tm us) post)
    | _ => tryGrammars tm gs s

/-- The weekday-name table of lines 150-168, in source order. -/
def day_nr : List (List Char × Int) :=
  [ ("Sunday".data, 0), ("Sun".data, 0)
  , ("Monday".data, 1), ("Mon".data, 1)
  , ("Tuesday".data, 2), ("Tue".data, 2)
  , ("Wednesday".data, 3), ("Wed".data, 3)
  , ("Thursday".data, 4), ("Thu".data, 4)
  , ("Friday".data, 5), ("Fri".data, 5)
  , ("Saturday".data, 6), ("Sat".data, 6) ]

def lowerC (c : Char) : Char :=
  if 65 ≤ c.toNat ∧ c.toNat ≤ 90 then Char.ofNat (c.toNat + 32) else c

/-- `startswith_no_case` of `strutils.h`, modelled from the spec as
case-insensitive literal prefix match. -/
def startswithNoCase : List Char → List Char → Bool
  | _, [] => true
  | [], _ :: _ => false
  | c :: t, d :: u => (lowerC c == lowerC d) && startswithNoCase t u

/-- Lines 248-261: find a weekday name that prefixes the text followed
by a single space; non-matching entries (including name-but-no-space)
are skipped. -/
def scanWeekday : List (List Char × Int) → List Char → Int × List Char
  | [], t => (-1, t)
  | (name, nr) :: rest, t =>
    if startswithNoCase t name then
      match t.drop name.length with
      | ' ' :: t2 => (nr, t2)
      | _ => scanWeekday rest t
    else scanWeekday rest t

/-- Error exits of `parse_timestamp`; all non-`parse_sec` exits return
`-EINVAL` in C, recorded by `errnoTs`. -/
inductive TsErr where
  | secErr : SecErr → TsErr
  | unknownFormat
  | mktimeFail
  | weekdayMismatch
deriving DecidableEq

def errnoTs : TsErr → Int
  | .secErr e => errnoSec e
  | _ => -22

/-- `endswith` of `strutils.h`, modelled from the spec as literal suffix
test. -/
def endswith (t suf : List Char) : Bool := suf.isSuffixOf t

/-- Lines 322-340, the `finish` label: normalize, check the weekday,
convert to unsigned microseconds, add the plus offset (both modulo
2 ^ 64, as the C unsigned arithmetic does), and subtract the minus
offset saturating at zero. -/
def finishTs (tm : Tm) (plus minus : Nat) (weekday : Int) : Except TsErr Nat :=
  let x := mktimeSec tm
  if x = -1 then .error .mktimeFail
  else if 0 ≤ weekday ∧ mktimeWday tm ≠ weekday then .error .weekdayMismatch
  else
    let ret := ((x % (P64 : Int)).toNat * 1000000) % P64
    let ret2 := (ret + plus) % P64
    if minus < ret2 then .ok (ret2 - minus) else .ok 0

/-- `parse_timestamp` of `timeutils.c`.  `now` is the injected current
instant in microseconds; the C code reads the clock at seconds
resolution (`time(NULL)`), hence the `/ 1000000`. -/
def parse_timestamp (t : List Char) (now : Nat) : Except TsErr Nat :=
  let x : Int := ((now / 1000000 : Nat) : Int)
  let tm := localtimeModel x
  if t = "now".data then finishTs tm 0 0 (-1)
  else if t = "today".data then
    finishTs {tm with tm_sec := 0, tm_min := 0, tm_hour := 0} 0 0 (-1)
  else if t = "yesterday".data then
    finishTs {tm with tm_mday := tm.tm_mday - 1, tm_sec := 0, tm_min := 0, tm_hour := 0}
      0 0 (-1)
  else if t = "tomorrow".data then
    finishTs {tm with tm_mday := tm.tm_mday + 1, tm_sec := 0, tm_min := 0, tm_hour := 0}
      0 0 (-1)
  else if t.head? = some '+' then
    match parse_sec t.tail with
    | .error e => .error (.secErr e)
    | .ok plus => finishTs tm plus 0 (-1)
  else if t.head? = some '-' then
    match parse_sec t.tail with
    | .error e => .error (.secErr e)
    | .ok minus => finishTs tm 0 minus (-1)
  else if endswith t (" ago".data) then
    match parse_sec (t.take (t.length - 4)) with
    | .error e => .error (.secErr e)
    | .ok minus => finishTs tm 0 minus (-1)
  else
    match scanWeekday day_nr t with
    | (weekday, t2) =>
      match tryGrammars tm grammars t2 with
      | none => .error .unknownFormat
      | some tm2 => finishTs tm2 0 0 weekday

/-- The formatter flag set (`ISO_8601_*` bits of the repository header,
modelled from the spec as independent booleans). -/
structure IsoFlags where
  date : Bool := false
  time : Bool := false
  dotusec : Bool := false
  commausec : Bool := false
  tz : Bool := false
  space : Bool := false

def intChars (n : Int) : List Char :=
  if n < 0 then '-' :: natChars (-n).toNat else natChars n.toNat

/-- `printf "%4d"`: right-justified in a field of four, space padded. -/
def pad4sp (n : Int) : List Char :=
  List.replicate (4 - (intChars n).length) ' ' ++ intChars n

/-- `printf "%.2d"` and `"%02d"` on the non-negative values the
formatter receives: zero padded to two digits. -/
def pad2z (n : Int) : List Char :=
  if n < 0 then intChars n
  else List.replicate (2 - (natChars n.toNat).length) '0' ++ natChars n.toNat

/-- `printf "%06ld"` for the fractional-seconds field. -/
def pad6z (n : Int) : List Char :=
  if n < 0 then intChars n
  else List.replicate (6 - (natChars n.toNat).length) '0' ++ natChars n.toNat

/-- Lines 343-394, `format_iso_time` (buffer-size bookkeeping is out of
scope per the spec; the time-zone suffix of `strftime %z` is modelled as
the fixed-zone offset). -/
def format_iso_time (tm : Tm) (usec : Int) (f : IsoFlags) : List Char :=
  (if f.date then
    pad4sp (tm.tm_year + 1900) ++ '-' :: pad2z (tm.tm_mon + 1) ++ '-' :: pad2z tm.tm_mday
   else [])
  ++ (if f.date && f.time then [if f.space then ' ' else 'T'] else [])
  ++ (if f.time then pad2z tm.tm_hour ++ ':' :: pad2z tm.tm_min ++ ':' :: pad2z tm.tm_sec
      else [])
  ++ (if f.dotusec then '.' :: pad6z usec
      else if f.commausec then ',' :: pad6z usec else [])
  ++ (if f.tz then "+0000".data else [])

lemma finishTs_seed (x : Int) (plus minus : Nat) (hx : 0 ≤ x)
    (hplus : x.toNat * 1000000 + plus < P64) :
    finishTs (localtimeModel x) plus minus (-1) =
      (if minus < x.toNat * 1000000 + plus
       then (.ok (x.toNat * 1000000 + plus - minus) : Except TsErr Nat)
       else .ok 0) := by
  have hxnat : x.toNat < P64 := by
    have h0 : x.toNat ≤ x.toNat * 1000000 := Nat.le_mul_of_pos_right _ (by norm_num)
    omega
  have hxP : x < (P64 : Int) := by
    rw [← Int.toNat_of_nonneg hx]
    exact_mod_cast hxnat
  simp only [finishTs, mktimeSec_localtimeModel x]
  rw [if_neg (by omega)]
  rw [if_neg (fun h => absurd h.1 (by norm_num))]
  have h1 : x % (P64 : Int) = x := Int.emod_eq_of_lt hx hxP
  rw [h1]
  have h2 : (x.toNat * 1000000) % P64 = x.toNat * 1000000 :=
    Nat.mod_eq_of_lt (by omega)
  rw [h2]
  have h3 : (x.toNat * 1000000 + plus) % P64 = x.toNat * 1000000 + plus :=
    Nat.mod_eq_of_lt hplus
  rw [h3]

lemma toNat_div_cast (T : Nat) : (((T / 1000000 : Nat) : Int)).toNat = T / 1000000 := by
  omega

/-- Claim C5 counterexample: at the instant 1 500 000 µs (1.5 seconds
past the epoch), parse_timestamp("now") returns 1 000 000 µs — the
sub-second component of the injected now is dropped, because the C code
reads the clock with `time(NULL)` at seconds resolution. -/
theorem C5_cex :
    parse_timestamp ("now".data) 1500000 = .ok 1000000 := rfl

/-- Claim C5 (amended): for every instant `T` below 2 ^ 64,
parse_timestamp("now", now = T) returns `T` truncated to whole seconds,
`(T / 10 ^ 6) * 10 ^ 6`; the sub-second microsecond component of `T` is
lost at the `time(NULL)` clock read. -/
theorem C5_now_truncated (T : Nat) (hT : T < P64) :
    parse_timestamp ("now".data) T = .ok (T / 1000000 * 1000000) := by
  simp only [parse_timestamp]
  rw [if_pos trivial]
  have hs := finishTs_seed ((T / 1000000 : Nat) : Int) 0 0 (Int.natCast_nonneg _)
    (by rw [toNat_div_cast]; have := Nat.div_mul_le_self T 1000000; omega)
  rw [toNat_div_cast] at hs
  rw [hs]
  split_ifs with h
  · simp
  · have : T / 1000000 * 1000000 = 0 := by omega
    rw [this]

/-- Claim C5 witness: at a whole-second instant the result is exact. -/
theorem C5_witness :
    (1348331662000000 : Nat) < P64 ∧
    parse_timestamp ("now".data) 1348331662000000 = .ok 1348331662000000 := by
  refine ⟨by decide, ?_⟩
  have h := C5_now_truncated 1348331662000000 (by decide)
  simpa using h

/-- Claim C3 counterexample: at now = 500 000 µs, "+5min" yields exactly
300 000 000 µs, not `T + 300 000 000 = 300 500 000`: the now instant is
truncated to whole seconds before the offset is added; and at
now = 300 500 000 µs (which is ≥ 300 000 000, so the claim promises
`T - 300 000 000 = 500 000`), "-5min" yields 0 because the truncated
seconds value 300 000 000 does not exceed the minus offset. -/
theorem C3_cex :
    parse_timestamp ("+5min".data) 500000 = .ok 300000000 ∧
    parse_timestamp ("-5min".data) 300500000 = .ok 0 :=
  ⟨rfl, rfl⟩

/-- Claim C3 (amended): writing `Ts = (T / 10 ^ 6) * 10 ^ 6` for the
now instant truncated to whole seconds (the `time(NULL)` read), and for
`T + 300 000 000` below 2 ^ 64: parse_timestamp("+5min", now = T)
returns exactly `Ts + 300 000 000`, and parse_timestamp("-5min",
now = T) returns `Ts - 300 000 000` saturated at zero (in particular 0
whenever `T < 300 000 000`, as the claim states — but also for
`T` up to 301 000 000 where `Ts ≤ 300 000 000`). -/
theorem C3_plus_minus_5min (T : Nat) (hT : T + 300000000 < P64) :
    parse_timestamp ("+5min".data) T = .ok (T / 1000000 * 1000000 + 300000000) ∧
    parse_timestamp ("-5min".data) T = .ok (T / 1000000 * 1000000 - 300000000) := by
  have hle := Nat.div_mul_le_self T 1000000
  constructor
  · simp only [parse_timestamp]
    rw [if_neg (by decide), if_neg (by decide), if_neg (by decide), if_neg (by decide)]
    rw [if_pos (by decide)]
    have hps : parse_sec (("+5min".data).tail) = .ok 300000000 := rfl
    rw [hps]
    dsimp only
    have hs := finishTs_seed ((T / 1000000 : Nat) : Int) 300000000 0 (Int.natCast_nonneg _)
      (by rw [toNat_div_cast]; omega)
    rw [toNat_div_cast] at hs
    rw [hs]
    rw [if_pos (by omega)]
    simp
  · simp only [parse_timestamp]
    rw [if_neg (by decide), if_neg (by decide), if_neg (by decide), if_neg (by decide)]
    rw [if_neg (by decide)]
    rw [if_pos (by decide)]
    have hps : parse_sec (("-5min".data).tail) = .ok 300000000 := rfl
    rw [hps]
    dsimp only
    have hs := finishTs_seed ((T / 1000000 : Nat) : Int) 0 300000000 (Int.natCast_nonneg _)
      (by rw [toNat_div_cast]; omega)
    rw [toNat_div_cast] at hs
    rw [hs]
    split_ifs with h
    · have he : T / 1000000 * 1000000 + 0 - 300000000 = T / 1000000 * 1000000 - 300000000 := by
        omega
      rw [he]
    · have he : T / 1000000 * 1000000 - 300000000 = 0 := by omega
      rw [he]

/-- Claim C3 witness: at a concrete now instant both offsets evaluate
to the expected values, and the saturation case yields zero. -/
theorem C3_witness :
    (1000000000000 : Nat) + 300000000 < P64 ∧
    parse_timestamp ("+5min".data) 1000000000000 = .ok 1000300000000 ∧
    parse_timestamp ("-5min".data) 1000000000000 = .ok 999700000000 ∧
    parse_timestamp ("-5min".data) 200000000 = .ok 0 := by
  refine ⟨by decide, ?_, ?_, ?_⟩
  · have h := (C3_plus_minus_5min 1000000000000 (by decide)).1
    simpa using h
  · have h := (C3_plus_minus_5min 1000000000000 (by decide)).2
    simpa using h
  · have h := (C3_plus_minus_5min 200000000 (by decide)).2
    simpa using h

lemma mkSec_120102 (tm : Tm) :
    mktimeSec (applyPost (applyFlds tm [(.fY2, 12), (.fMon, 1), (.fMday, 2)]) .zhms) =
      1325462400 := rfl

lemma mkSec_20120102 (tm : Tm) :
    mktimeSec (applyPost (applyFlds tm [(.fY4, 2012), (.fMon, 1), (.fMday, 2)]) .zhms) =
      1325462400 := rfl

lemma mkSec_20120924 (tm : Tm) :
    mktimeSec (applyPost (applyFlds tm [(.fY4, 2012), (.fMon, 9), (.fMday, 24)]) .zhms) =
      1348444800 := rfl

lemma mkWday_20120924 (tm : Tm) :
    mktimeWday (applyPost (applyFlds tm [(.fY4, 2012), (.fMon, 9), (.fMday, 24)]) .zhms) =
      1 := rfl

lemma mkSec_20120922 (tm : Tm) :
    mktimeSec (applyPost (applyFlds tm [(.fY4, 2012), (.fMon, 9), (.fMday, 22)]) .zhms) =
      1348272000 := rfl

lemma mkWday_20120922 (tm : Tm) :
    mktimeWday (applyPost (applyFlds tm [(.fY4, 2012), (.fMon, 9), (.fMday, 22)]) .zhms) =
      6 := rfl

lemma tryG_20120922x (tm : Tm) : tryGrammars tm grammars ("2012-09-22x".data) = none := rfl

lemma tryG_120102 (tm : Tm) :
    tryGrammars tm grammars ("12-01-02".data) =
      some (applyPost (applyFlds tm [(.fY2, 12), (.fMon, 1), (.fMday, 2)]) .zhms) := rfl

lemma tryG_20120102 (tm : Tm) :
    tryGrammars tm grammars ("2012-01-02".data) =
      some (applyPost (applyFlds tm [(.fY4, 2012), (.fMon, 1), (.fMday, 2)]) .zhms) := rfl

lemma tryG_20120924 (tm : Tm) :
    tryGrammars tm grammars ("2012-09-24".data) =
      some (applyPost (applyFlds tm [(.fY4, 2012), (.fMon, 9), (.fMday, 24)]) .zhms) := rfl

lemma tryG_20120925 (tm : Tm) :
    tryGrammars tm grammars ("2012-09-25".data) =
      some (applyPost (applyFlds tm [(.fY4, 2012), (.fMon, 9), (.fMday, 25)]) .zhms) := rfl

lemma tryG_20120922 (tm : Tm) :
    tryGrammars tm grammars ("2012-09-22".data) =
      some (applyPost (applyFlds tm [(.fY4, 2012), (.fMon, 9), (.fMday, 22)]) .zhms) := rfl

lemma fin_120102 (tm : Tm) :
    finishTs (applyPost (applyFlds tm [(.fY2, 12), (.fMon, 1), (.fMday, 2)]) .zhms) 0 0 (-1) =
      .ok 1325462400000000 := by
  simp only [finishTs, mkSec_120102]
  rw [if_neg (by norm_num), if_neg (fun h => absurd h.1 (by norm_num))]
  decide

lemma fin_20120102 (tm : Tm) :
    finishTs (applyPost (applyFlds tm [(.fY4, 2012), (.fMon, 1), (.fMday, 2)]) .zhms) 0 0 (-1) =
      .ok 1325462400000000 := by
  simp only [finishTs, mkSec_20120102]
  rw [if_neg (by norm_num), if_neg (fun h => absurd h.1 (by norm_num))]
  decide

lemma fin_20120924 (tm : Tm) :
    finishTs (applyPost (applyFlds tm [(.fY4, 2012), (.fMon, 9), (.fMday, 24)]) .zhms) 0 0 1 =
      .ok 1348444800000000 := by
  simp only [finishTs, mkSec_20120924, mkWday_20120924]
  rw [if_neg (by norm_num), if_neg (by norm_num)]
  decide

lemma fin_20120925 (tm : Tm) :
    finishTs (applyPost (applyFlds tm [(.fY4, 2012), (.fMon, 9), (.fMday, 25)]) .zhms) 0 0 1 =
      .error .weekdayMismatch := rfl

lemma fin_20120922 (tm : Tm) :
    finishTs (applyPost (applyFlds tm [(.fY4, 2012), (.fMon, 9), (.fMday, 22)]) .zhms) 0 0 6 =
      .ok 1348272000000000 := by
  simp only [finishTs, mkSec_20120922, mkWday_20120922]
  rw [if_neg (by norm_num), if_neg (by norm_num)]
  decide

/-- Claim C4: the nine grammars are tried in the fixed source order,
each attempt starting from the seed broken-down time, and a grammar
matches only when it consumes the entire remaining text: the trailing
character of "2012-09-22x" makes every grammar fail, yielding the
unrecognized-format error; "12-01-02" resolves through the yy-mm-dd
grammar (tried before yyyy-mm-dd, which would also match the whole
text as year 12) and "2012-01-02" through the yyyy-mm-dd grammar, both
denoting 2012-01-02 00:00:00, independently of the seed instant; and
the yyyy-mm-dd grammar alone (the table with the first five grammars
dropped) would indeed also consume all of "12-01-02", reading year 12,
so the fixed order is what disambiguates. -/
theorem C4_grammar_order :
    (∀ T : Nat, parse_timestamp ("2012-09-22x".data) T = .error .unknownFormat) ∧
    (∀ T : Nat, parse_timestamp ("12-01-02".data) T = .ok 1325462400000000) ∧
    (∀ T : Nat, parse_timestamp ("2012-01-02".data) T = .ok 1325462400000000) ∧
    (∀ tm : Tm, tryGrammars tm (grammars.drop 5) ("12-01-02".data) =
      some (applyPost (applyFlds tm [(.fY4, 12), (.fMon, 1), (.fMday, 2)]) .zhms)) := by
  refine ⟨fun T => ?_, fun T => ?_, fun T => ?_, fun tm => rfl⟩
  · simp only [parse_timestamp]
    rw [if_neg (by decide), if_neg (by decide), if_neg (by decide), if_neg (by decide),
        if_neg (by decide), if_neg (by decide), if_neg (by decide)]
    rw [show scanWeekday day_nr ("2012-09-22x".data) = (-1, "2012-09-22x".data) from rfl]
    dsimp only
    rw [tryG_20120922x]
  · simp only [parse_timestamp]
    rw [if_neg (by decide), if_neg (by decide), if_neg (by decide), if_neg (by decide),
        if_neg (by decide), if_neg (by decide), if_neg (by decide)]
    rw [show scanWeekday day_nr ("12-01-02".data) = (-1, "12-01-02".data) from rfl]
    dsimp only
    rw [tryG_120102]
    dsimp only
    exact fin_120102 _
  · simp only [parse_timestamp]
    rw [if_neg (by decide), if_neg (by decide), if_neg (by decide), if_neg (by decide),
        if_neg (by decide), if_neg (by decide), if_neg (by decide)]
    rw [show scanWeekday day_nr ("2012-01-02".data) = (-1, "2012-01-02".data) from rfl]
    dsimp only
    rw [tryG_20120102]
    dsimp only
    exact fin_20120102 _

/-- Claim C6 counterexample: the weekday-mismatch failure and the
unknown-format failure both return `-EINVAL = -22` (as does a
normalization failure), so the weekday mismatch is not distinguishable
from the other error kinds at the C interface. -/
theorem C6_cex :
    parse_timestamp ("Monday 2012-09-25".data) 0 = .error .weekdayMismatch ∧
    parse_timestamp ("nonsense".data) 0 = .error .unknownFormat ∧
    errnoTs .weekdayMismatch = errnoTs .unknownFormat ∧
    errnoTs .weekdayMismatch = errnoTs .mktimeFail :=
  ⟨rfl, rfl, by decide, by decide⟩

/-- Claim C6 (amended): a weekday-prefixed date whose named weekday
disagrees with the normalized date's weekday fails at the dedicated
weekday check (2012-09-25 was a Tuesday, so "Monday 2012-09-25" is
rejected), and succeeds when it agrees ("Monday 2012-09-24"); the
failure returns `-EINVAL`, the same value as the unknown-format and
normalization failures, so it is not a distinct error code for
callers. -/
theorem C6_weekday_check :
    (∀ T : Nat, parse_timestamp ("Monday 2012-09-24".data) T = .ok 1348444800000000) ∧
    (∀ T : Nat, parse_timestamp ("Monday 2012-09-25".data) T = .error .weekdayMismatch) ∧
    (∀ T : Nat, parse_timestamp ("Sat 2012-09-22".data) T = .ok 1348272000000000) ∧
    errnoTs .weekdayMismatch = -22 := by
  refine ⟨fun T => ?_, fun T => ?_, fun T => ?_, by decide⟩
  · simp only [parse_timestamp]
    rw [if_neg (by decide), if_neg (by decide), if_neg (by decide), if_neg (by decide),
        if_neg (by decide), if_neg (by decide), if_neg (by decide)]
    rw [show scanWeekday day_nr ("Monday 2012-09-24".data) = (1, "2012-09-24".data) from rfl]
    dsimp only
    rw [tryG_20120924]
    dsimp only
    exact fin_20120924 _
  · simp only [parse_timestamp]
    rw [if_neg (by decide), if_neg (by decide), if_neg (by decide), if_neg (by decide),
        if_neg (by decide), if_neg (by decide), if_neg (by decide)]
    rw [show scanWeekday day_nr ("Monday 2012-09-25".data) = (1, "2012-09-25".data) from rfl]
    dsimp only
    rw [tryG_20120925]
    dsimp only
    exact fin_20120925 _
  · simp only [parse_timestamp]
    rw [if_neg (by decide), if_neg (by decide), if_neg (by decide), if_neg (by decide),
        if_neg (by decide), if_neg (by decide), if_neg (by decide)]
    rw [show scanWeekday day_nr ("Sat 2012-09-22".data) = (6, "2012-09-22".data) from rfl]
    dsimp only
    rw [tryG_20120922]
    dsimp only
    exact fin_20120922 _

/-- Claim C7 counterexample: for the duration text d = "+5min" the two
spellings disagree: "-+5min" succeeds (strtoll consumes the inner '+'
after the stripped leading '-'), while "+5min ago" takes the leading-'+'
branch first and fails inside parse_sec on the trailing " ago". -/
theorem C7_cex :
    parse_timestamp ('-' :: ("+5min").data) 1000000000000 = .ok 999700000000 ∧
    parse_timestamp (("+5min").data ++ (" ago").data) 1000000000000 =
      .error (.secErr .invalidNoDigits) :=
  ⟨rfl, rfl⟩

/-- Claim C7 (amended): for every duration text d that does not start
with '+' or '-', and every instant, parse_timestamp("-d") and
parse_timestamp("d ago") return the same result; texts starting with a
sign are intercepted by the '+'/'-' branches before the " ago" suffix
is examined, so for them the two spellings can disagree. -/
theorem C7_ago_equiv (d : List Char) (T : Nat)
    (h : d.head? ≠ some '+' ∧ d.head? ≠ some '-') :
    parse_timestamp ('-' :: d) T = parse_timestamp (d ++ (" ago").data) T := by
  have hlast : (d ++ (" ago").data).getLast? = some 'o' := by
    rw [List.getLast?_append_of_ne_nil d (by decide)]
    rfl
  have hhead : (d ++ (" ago").data).head? ≠ some '+' ∧
      (d ++ (" ago").data).head? ≠ some '-' := by
    cases d with
    | nil => exact ⟨by decide, by decide⟩
    | cons c t => simpa using h
  have hends : endswith (d ++ (" ago").data) ((" ago").data) = true := by
    unfold endswith List.isSuffixOf
    rw [List.reverse_append]
    exact isPrefixOf_append_self _ _
  have hlen : (d ++ (" ago").data).length - 4 = d.length := by
    have h4 : ((" ago").data).length = 4 := rfl
    rw [List.length_append, h4]
    omega
  have htake : (d ++ (" ago").data).take ((d ++ (" ago").data).length - 4) = d := by
    rw [hlen]
    exact List.take_left d (" ago").data
  simp only [parse_timestamp]
  rw [if_neg (fun hEq => by injection hEq with h1 _; exact absurd h1 (by decide))]
  rw [if_neg (fun hEq => by injection hEq with h1 _; exact absurd h1 (by decide))]
  rw [if_neg (fun hEq => by injection hEq with h1 _; exact absurd h1 (by decide))]
  rw [if_neg (fun hEq => by injection hEq with h1 _; exact absurd h1 (by decide))]
  rw [if_neg (by simp), if_pos (by simp)]
  rw [if_neg (fun hEq => by rw [hEq] at hlast; exact absurd hlast (by decide))]
  rw [if_neg (fun hEq => by rw [hEq] at hlast; exact absurd hlast (by decide))]
  rw [if_neg (fun hEq => by rw [hEq] at hlast; exact absurd hlast (by decide))]
  rw [if_neg (fun hEq => by rw [hEq] at hlast; exact absurd hlast (by decide))]
  rw [if_neg hhead.1, if_neg hhead.2, if_pos hends, htake]
  rfl

/-- Claim C7 witness: at d = "5min" (no leading sign) both spellings
agree at a concrete instant. -/
theorem C7_witness :
    ((("5min").data.head? ≠ some '+' ∧ ("5min").data.head? ≠ some '-')) ∧
    parse_timestamp ('-' :: ("5min").data) 1000000000000 =
      parse_timestamp (("5min").data ++ (" ago").data) 1000000000000 :=
  ⟨by decide, C7_ago_equiv (("5min").data) 1000000000000 (by decide)⟩

lemma digitVal_le_nine (c : Char) (h : isDigitC c = true) : digitVal c ≤ 9 := by
  unfold isDigitC at h
  simp only [Bool.and_eq_true, decide_eq_true_eq] at h
  unfold digitVal
  omega

lemma foldl_digits_lt (ds : List Char) (hds : ∀ c ∈ ds, isDigitC c = true) :
    ∀ a : Nat, ds.foldl (fun a c => a * 10 + digitVal c) a < (a + 1) * 10 ^ ds.length := by
  induction ds with
  | nil => intro a; simp
  | cons c t ih =>
    intro a
    have hc := digitVal_le_nine c (hds c (by simp))
    have ht := ih (fun x hx => hds x (by simp [hx]))
    have h1 := ht (a * 10 + digitVal c)
    have h2 : (a * 10 + digitVal c + 1) * 10 ^ t.length ≤ (a + 1) * 10 ^ (t.length + 1) := by
      have hp : (0:Nat) < 10 ^ t.length := Nat.pos_pow_of_pos _ (by norm_num)
      have : a * 10 + digitVal c + 1 ≤ (a + 1) * 10 := by omega
      calc (a * 10 + digitVal c + 1) * 10 ^ t.length
          ≤ (a + 1) * 10 * 10 ^ t.length := Nat.mul_le_mul_right _ this
        _ = (a + 1) * 10 ^ (t.length + 1) := by ring
    simp only [List.foldl_cons, List.length_cons]
    omega

lemma digitsToNat_lt_pow (ds : List Char) (hds : ∀ c ∈ ds, isDigitC c = true) :
    digitsToNat ds < 10 ^ ds.length := by
  have := foldl_digits_lt ds hds 0
  simpa [digitsToNat] using this

lemma natChars_length_eq_four (n : Nat) (h0 : 1000 ≤ n) (h1 : n ≤ 9999) :
    (natChars n).length = 4 := by
  have hle := natChars_length_le n 4 (by norm_num) (by omega)
  have hlt := digitsToNat_lt_pow (natChars n) (natChars_all_digits n)
  rw [natChars_value] at hlt
  rcases Nat.lt_or_ge (natChars n).length 4 with hl | hl
  · exfalso
    have : (10:Nat) ^ (natChars n).length ≤ 10 ^ 3 :=
      Nat.pow_le_pow_right (by norm_num) (by omega)
    have h3 : (10:Nat) ^ 3 = 1000 := by norm_num
    omega
  · omega

lemma pad4sp_natChars (n : Int) (h0 : 1000 ≤ n) (h1 : n ≤ 9999) :
    pad4sp n = natChars n.toNat := by
  unfold pad4sp intChars
  rw [if_neg (by omega)]
  rw [natChars_length_eq_four n.toNat (by omega) (by omega)]
  simp

lemma pad2z_padZeros (n : Int) (h0 : 0 ≤ n) : pad2z n = padZeros 2 n.toNat := by
  unfold pad2z padZeros
  rw [if_neg (by omega)]

lemma parseNum_exact (w lo hi : Nat) (ds rest : List Char)
    (hlen : ds.length = w) (hw : 0 < w)
    (hds : ∀ c ∈ ds, isDigitC c = true)
    (hlo : lo ≤ digitsToNat ds) (hhi : digitsToNat ds ≤ hi) :
    parseNum w lo hi (ds ++ rest) = some (digitsToNat ds, rest) := by
  unfold parseNum
  have htw : (ds ++ rest).take w = ds := by
    rw [← hlen]
    exact List.take_left ds rest
  rw [htw]
  have htws : ds.takeWhile isDigitC = ds := by
    have h := takeWhile_all_append isDigitC ds [] hds (Or.inl rfl)
    simpa using h.1
  rw [htws]
  rw [if_neg (by intro hn; rw [hn] at hlen; simp at hlen; omega)]
  rw [if_pos ⟨hlo, hhi⟩]
  rw [List.drop_left ds rest]

lemma startswithNoCase_head_false (c0 n0 : Char) (R nr : List Char)
    (h : (lowerC c0 == lowerC n0) = false) :
    startswithNoCase (c0 :: R) (n0 :: nr) = false := by
  simp only [startswithNoCase, h, Bool.false_and]

lemma scanWeekday_skip_all (tbl : List (List Char × Int)) (t : List Char)
    (h : ∀ p ∈ tbl, startswithNoCase t p.1 = false) : scanWeekday tbl t = (-1, t) := by
  induction tbl with
  | nil => rfl
  | cons p rest ih =>
    obtain ⟨name, nr⟩ := p
    simp only [scanWeekday]
    rw [h (name, nr) (by simp), if_neg (by simp)]
    exact ih (fun q hq => h q (by simp [hq]))

lemma lowerC_digit (c : Char) (hc : isDigitC c = true) : lowerC c = c := by
  unfold isDigitC at hc
  simp only [Bool.and_eq_true, decide_eq_true_eq] at hc
  unfold lowerC
  rw [if_neg (by omega)]

lemma digit_beq_false (c d : Char) (hc : isDigitC c = true) (hd : isDigitC d = false) :
    (c == d) = false :=
  beq_eq_false_iff_ne.mpr (fun h => by rw [h] at hc; rw [hc] at hd; cases hd)

lemma scanWeekday_digit (c0 : Char) (R : List Char) (hc : isDigitC c0 = true) :
    scanWeekday day_nr (c0 :: R) = (-1, c0 :: R) := by
  have h1 : lowerC c0 = c0 := lowerC_digit c0 hc
  have hs : (lowerC c0 == lowerC 'S') = false := by
    rw [h1]
    exact digit_beq_false c0 's' hc (by decide)
  have hm : (lowerC c0 == lowerC 'M') = false := by
    rw [h1]
    exact digit_beq_false c0 'm' hc (by decide)
  have ht : (lowerC c0 == lowerC 'T') = false := by
    rw [h1]
    exact digit_beq_false c0 't' hc (by decide)
  have hw : (lowerC c0 == lowerC 'W') = false := by
    rw [h1]
    exact digit_beq_false c0 'w' hc (by decide)
  have hf : (lowerC c0 == lowerC 'F') = false := by
    rw [h1]
    exact digit_beq_false c0 'f' hc (by decide)
  refine scanWeekday_skip_all day_nr (c0 :: R) ?_
  intro p hp
  simp only [day_nr, List.mem_cons, List.not_mem_nil, or_false] at hp
  rcases hp with rfl|rfl|rfl|rfl|rfl|rfl|rfl|rfl|rfl|rfl|rfl|rfl|rfl|rfl <;>
    first
      | exact startswithNoCase_head_false c0 'S' R _ hs
      | exact startswithNoCase_head_false c0 'M' R _ hm
      | exact startswithNoCase_head_false c0 'T' R _ ht
      | exact startswithNoCase_head_false c0 'W' R _ hw
      | exact startswithNoCase_head_false c0 'F' R _ hf

lemma parseNum_padZeros (lo hi v : Nat) (rest : List Char) (hv : v < 100)
    (hlo : lo ≤ v) (hhi : v ≤ hi) :
    parseNum 2 lo hi (padZeros 2 v ++ rest) = some (v, rest) := by
  have h := parseNum_exact 2 lo hi (padZeros 2 v) rest
    (padZeros_length 2 v (by norm_num) (by norm_num; omega))
    (by norm_num) (padZeros_all_digits 2 v)
    (by rw [padZeros_value]; exact hlo) (by rw [padZeros_value]; exact hhi)
  rwa [padZeros_value] at h

lemma parseNum_natChars4 (ny : Nat) (rest : List Char) (h0 : 1000 ≤ ny) (h1 : ny ≤ 9999) :
    parseNum 4 0 9999 (natChars ny ++ rest) = some (ny, rest) := by
  have h := parseNum_exact 4 0 9999 (natChars ny) rest (natChars_length_eq_four ny h0 h1)
    (by norm_num) (natChars_all_digits ny) (by omega) (by rw [natChars_value]; omega)
  rwa [natChars_value] at h

lemma dropWhile_pad_text (v : Nat) (rest : List Char) :
    (padZeros 2 v ++ rest).dropWhile isSp6 = padZeros 2 v ++ rest := by
  rcases hP : padZeros 2 v with _ | ⟨p0, pr⟩
  · exact absurd hP (padZeros_ne_nil 2 v)
  · have hp0 : isDigitC p0 = true := padZeros_all_digits 2 v p0 (by rw [hP]; simp)
    rw [List.cons_append]
    exact dropWhile_of_head_false isSp6 p0 (pr ++ rest) (isDigit_not_sp p0 hp0)

lemma runFmt_g2 (ny nm nd nh nmi ns : Nat)
    (hy : 1000 ≤ ny) (hy2 : ny ≤ 9999)
    (hm1 : 1 ≤ nm) (hm2 : nm ≤ 12)
    (hd1 : 1 ≤ nd) (hd2 : nd ≤ 31)
    (hh : nh ≤ 23) (hmi : nmi ≤ 59) (hns : ns ≤ 61) :
    runFmt [.num .fY4, .lit '-', .num .fMon, .lit '-', .num .fMday, .ws,
      .num .fHour, .lit ':', .num .fMin, .lit ':', .num .fSec]
      (natChars ny ++ ('-' :: (padZeros 2 nm ++ ('-' :: (padZeros 2 nd ++ (' ' ::
        (padZeros 2 nh ++ (':' :: (padZeros 2 nmi ++ (':' :: padZeros 2 ns)))))))))) =
      some ([(.fY4, ny), (.fMon, nm), (.fMday, nd), (.fHour, nh), (.fMin, nmi), (.fSec, ns)],
        []) := by
  have hp1 := parseNum_natChars4 ny
    ('-' :: (padZeros 2 nm ++ ('-' :: (padZeros 2 nd ++ (' ' ::
      (padZeros 2 nh ++ (':' :: (padZeros 2 nmi ++ (':' :: padZeros 2 ns))))))))) hy hy2
  have hp2 := parseNum_padZeros 1 12 nm
    ('-' :: (padZeros 2 nd ++ (' ' ::
      (padZeros 2 nh ++ (':' :: (padZeros 2 nmi ++ (':' :: padZeros 2 ns))))))) (by omega) hm1 hm2
  have hp3 := parseNum_padZeros 1 31 nd
    (' ' :: (padZeros 2 nh ++ (':' :: (padZeros 2 nmi ++ (':' :: padZeros 2 ns)))))
    (by omega) hd1 hd2
  have hp4 := parseNum_padZeros 0 23 nh
    (':' :: (padZeros 2 nmi ++ (':' :: padZeros 2 ns))) (by omega) (by omega) hh
  have hp5 := parseNum_padZeros 0 59 nmi (':' :: padZeros 2 ns) (by omega) (by omega) hmi
  have hp6 : parseNum 2 0 61 (padZeros 2 ns) = some (ns, []) := by
    have h := parseNum_padZeros 0 61 ns [] (by omega) (by omega) hns
    rwa [List.append_nil] at h
  have hdw0 : List.dropWhile isSp6 (' ' :: (padZeros 2 nh ++ (':' ::
      (padZeros 2 nmi ++ (':' :: padZeros 2 ns))))) =
      padZeros 2 nh ++ (':' :: (padZeros 2 nmi ++ (':' :: padZeros 2 ns))) := by
    rw [List.dropWhile_cons, if_pos (by decide)]
    exact dropWhile_pad_text nh (':' :: (padZeros 2 nmi ++ (':' :: padZeros 2 ns)))
  simp only [runFmt, fldWidth, fldLo, fldHi]
  rw [hp1]
  dsimp only
  rw [if_pos rfl]
  rw [hp2]
  dsimp only
  rw [if_pos rfl]
  rw [hp3]
  dsimp only
  rw [hdw0]
  rw [hp4]
  dsimp only
  rw [if_pos rfl]
  rw [hp5]
  dsimp only
  rw [if_pos rfl]
  rw [hp6]

lemma runFmt_g1_fails (ny : Nat) (rest : List Char) (h0 : 1000 ≤ ny) (h1 : ny ≤ 9999) :
    runFmt [.num .fY2, .lit '-', .num .fMon, .lit '-', .num .fMday, .ws,
      .num .fHour, .lit ':', .num .fMin, .lit ':', .num .fSec]
      (natChars ny ++ '-' :: rest) = none := by
  have hlen4 := natChars_length_eq_four ny h0 h1
  rcases hY : natChars ny with _ | ⟨y1, _ | ⟨y2, _ | ⟨y3, _ | ⟨y4, _ | ⟨y5, t⟩⟩⟩⟩⟩ <;>
    rw [hY] at hlen4 <;> simp at hlen4
  have hd1 : isDigitC y1 = true := natChars_all_digits ny y1 (by rw [hY]; simp)
  have hd2 : isDigitC y2 = true := natChars_all_digits ny y2 (by rw [hY]; simp)
  have hd3 : isDigitC y3 = true := natChars_all_digits ny y3 (by rw [hY]; simp)
  have hp : parseNum 2 0 99 ([y1, y2] ++ (y3 :: y4 :: '-' :: rest)) =
      some (digitsToNat [y1, y2], y3 :: y4 :: '-' :: rest) := by
    refine parseNum_exact 2 0 99 [y1, y2] (y3 :: y4 :: '-' :: rest) (by simp) (by norm_num)
      ?_ (by omega) ?_
    · intro c hc
      simp only [List.mem_cons, List.not_mem_nil, or_false] at hc
      rcases hc with rfl | rfl
      · exact hd1
      · exact hd2
    · have := digitsToNat_lt_pow [y1, y2] (by
        intro c hc
        simp only [List.mem_cons, List.not_mem_nil, or_false] at hc
        rcases hc with rfl | rfl
        · exact hd1
        · exact hd2)
      simp at this
      omega
  simp only [List.cons_append, List.nil_append] at hp
  simp only [List.cons_append, List.nil_append]
  simp [runFmt, fldWidth, fldLo, fldHi, hp, (isDigit_ne_signs y3 hd3).1]

lemma localtimeModel_bounds (x : Int) (hx : 0 ≤ x) :
    0 ≤ (localtimeModel x).tm_sec ∧ (localtimeModel x).tm_sec ≤ 59 ∧
    0 ≤ (localtimeModel x).tm_min ∧ (localtimeModel x).tm_min ≤ 59 ∧
    0 ≤ (localtimeModel x).tm_hour ∧ (localtimeModel x).tm_hour ≤ 23 ∧
    0 ≤ (localtimeModel x).tm_mon ∧ (localtimeModel x).tm_mon ≤ 11 ∧
    1 ≤ (localtimeModel x).tm_mday ∧ (localtimeModel x).tm_mday ≤ 31 := by
  have hc := civilOfDays_bounds (x / 86400)
  simp only [localtimeModel]
  omega

lemma getLast?_append_cons (A : List Char) (c : Char) (B : List Char) (hB : B ≠ []) :
    (A ++ c :: B).getLast? = B.getLast? := by
  rw [List.getLast?_append_of_ne_nil A (by simp)]
  rcases B with _ | ⟨b, t⟩
  · exact absurd rfl hB
  · exact List.getLast?_cons_cons

lemma exists_getLast_digit (v : Nat) :
    ∃ cl, (padZeros 2 v).getLast? = some cl ∧ isDigitC cl = true := by
  have hne := padZeros_ne_nil 2 v
  refine ⟨(padZeros 2 v).getLast hne, List.getLast?_eq_getLast _ hne, ?_⟩
  exact padZeros_all_digits 2 v _ (List.getLast_mem hne)

lemma parse_timestamp_to_grammars (t : List Char) (T : Nat) (c0 : Char) (R : List Char)
    (ht : t = c0 :: R) (hc0 : isDigitC c0 = true)
    (hlast : ∃ cl, t.getLast? = some cl ∧ isDigitC cl = true) :
    parse_timestamp t T =
      (match tryGrammars (localtimeModel ((T / 1000000 : Nat) : Int)) grammars t with
       | none => .error .unknownFormat
       | some tm2 => finishTs tm2 0 0 (-1)) := by
  subst ht
  obtain ⟨cl, hcl, hcld⟩ := hlast
  have hago : ¬ endswith (c0 :: R) ((" ago").data) = true := by
    intro hend
    unfold endswith at hend
    obtain ⟨pre, hpre⟩ := List.isSuffixOf_iff_suffix.mp hend
    have hlo : (c0 :: R).getLast? = some 'o' := by
      rw [← hpre, List.getLast?_append_of_ne_nil pre (by decide)]
      rfl
    rw [hcl] at hlo
    injection hlo with hlo'
    rw [hlo'] at hcld
    exact absurd hcld (by decide)
  simp only [parse_timestamp]
  rw [if_neg (fun hEq => by
    injection hEq with h1 _
    rw [h1] at hc0
    exact absurd hc0 (by decide))]
  rw [if_neg (fun hEq => by
    injection hEq with h1 _
    rw [h1] at hc0
    exact absurd hc0 (by decide))]
  rw [if_neg (fun hEq => by
    injection hEq with h1 _
    rw [h1] at hc0
    exact absurd hc0 (by decide))]
  rw [if_neg (fun hEq => by
    injection hEq with h1 _
    rw [h1] at hc0
    exact absurd hc0 (by decide))]
  rw [if_neg (by
    simp only [List.head?_cons, Option.some.injEq]
    exact (isDigit_ne_signs c0 hc0).2)]
  rw [if_neg (by
    simp only [List.head?_cons, Option.some.injEq]
    exact (isDigit_ne_signs c0 hc0).1)]
  rw [if_neg hago]
  rw [scanWeekday_digit c0 R hc0]

lemma parse_format_space (tm : Tm) (usec : Int) (T : Nat)
    (hy0 : 1000 ≤ tm.tm_year + 1900) (hy1 : tm.tm_year + 1900 ≤ 9999)
    (hmon0 : 0 ≤ tm.tm_mon) (hmon1 : tm.tm_mon ≤ 11)
    (hd0 : 1 ≤ tm.tm_mday) (hd1 : tm.tm_mday ≤ 31)
    (hh0 : 0 ≤ tm.tm_hour) (hh1 : tm.tm_hour ≤ 23)
    (hmi0 : 0 ≤ tm.tm_min) (hmi1 : tm.tm_min ≤ 59)
    (hs0 : 0 ≤ tm.tm_sec) (hs1 : tm.tm_sec ≤ 59) :
    parse_timestamp
        (format_iso_time tm usec { date := true, time := true, space := true }) T =
      finishTs { localtimeModel ((T / 1000000 : Nat) : Int) with
        tm_sec := tm.tm_sec, tm_min := tm.tm_min, tm_hour := tm.tm_hour,
        tm_mday := tm.tm_mday, tm_mon := tm.tm_mon, tm_year := tm.tm_year } 0 0 (-1) := by
  have hfmt : format_iso_time tm usec { date := true, time := true, space := true } =
      natChars (tm.tm_year + 1900).toNat ++ ('-' :: (padZeros 2 (tm.tm_mon + 1).toNat ++
        ('-' :: (padZeros 2 tm.tm_mday.toNat ++ (' ' :: (padZeros 2 tm.tm_hour.toNat ++
        (':' :: (padZeros 2 tm.tm_min.toNat ++ (':' :: padZeros 2 tm.tm_sec.toNat))))))))) := by
    simp only [format_iso_time]
    rw [pad4sp_natChars (tm.tm_year + 1900) hy0 hy1,
        pad2z_padZeros (tm.tm_mon + 1) (by omega),
        pad2z_padZeros tm.tm_mday (by omega),
        pad2z_padZeros tm.tm_hour hh0,
        pad2z_padZeros tm.tm_min hmi0,
        pad2z_padZeros tm.tm_sec hs0]
    simp
  obtain ⟨c0, Y', hYc⟩ : ∃ c0 Y',
      natChars (tm.tm_year + 1900).toNat = c0 :: Y' := by
    rcases h : natChars (tm.tm_year + 1900).toNat with _ | ⟨a, b⟩
    · exact absurd h (natChars_ne_nil _)
    · exact ⟨a, b, rfl⟩
  have hc0 : isDigitC c0 = true := natChars_all_digits _ c0 (by rw [hYc]; simp)
  have hlast : ∃ cl,
      (format_iso_time tm usec { date := true, time := true, space := true }).getLast? =
        some cl ∧ isDigitC cl = true := by
    rw [hfmt]
    rw [getLast?_append_cons _ _ _
          (fun h => absurd (List.append_eq_nil.mp h).1 (padZeros_ne_nil _ _)),
        getLast?_append_cons _ _ _
          (fun h => absurd (List.append_eq_nil.mp h).1 (padZeros_ne_nil _ _)),
        getLast?_append_cons _ _ _
          (fun h => absurd (List.append_eq_nil.mp h).1 (padZeros_ne_nil _ _)),
        getLast?_append_cons _ _ _
          (fun h => absurd (List.append_eq_nil.mp h).1 (padZeros_ne_nil _ _)),
        getLast?_append_cons _ _ _ (padZeros_ne_nil 2 _)]
    exact exists_getLast_digit _
  rw [parse_timestamp_to_grammars _ T c0
        (Y' ++ ('-' :: (padZeros 2 (tm.tm_mon + 1).toNat ++
          ('-' :: (padZeros 2 tm.tm_mday.toNat ++ (' ' :: (padZeros 2 tm.tm_hour.toNat ++
          (':' :: (padZeros 2 tm.tm_min.toNat ++ (':' :: padZeros 2 tm.tm_sec.toNat))))))))))
        (by rw [hfmt, hYc, List.cons_append]) hc0 hlast]
  rw [hfmt]
  have htg : tryGrammars (localtimeModel ((T / 1000000 : Nat) : Int)) grammars
      (natChars (tm.tm_year + 1900).toNat ++ ('-' :: (padZeros 2 (tm.tm_mon + 1).toNat ++
        ('-' :: (padZeros 2 tm.tm_mday.toNat ++ (' ' :: (padZeros 2 tm.tm_hour.toNat ++
        (':' :: (padZeros 2 tm.tm_min.toNat ++ (':' :: padZeros 2 tm.tm_sec.toNat)))))))))) =
      some { localtimeModel ((T / 1000000 : Nat) : Int) with
        tm_sec := tm.tm_sec, tm_min := tm.tm_min, tm_hour := tm.tm_hour,
        tm_mday := tm.tm_mday, tm_mon := tm.tm_mon, tm_year := tm.tm_year } := by
    simp only [grammars, tryGrammars]
    rw [runFmt_g1_fails (tm.tm_year + 1900).toNat _ (by omega) (by omega)]
    dsimp only
    rw [runFmt_g2 (tm.tm_year + 1900).toNat (tm.tm_mon + 1).toNat tm.tm_mday.toNat
          tm.tm_hour.toNat tm.tm_min.toNat tm.tm_sec.toNat
          (by omega) (by omega) (by omega) (by omega) (by omega) (by omega)
          (by omega) (by omega) (by omega)]
    dsimp only [applyFlds, applyFld, List.foldl, applyPost]
    refine congrArg some ?_
    simp only [Tm.mk.injEq, and_true, true_and]
    refine ⟨?_, ?_, ?_, ?_, ?_, ?_⟩ <;> omega
  rw [htg]

/-- Claim C8 counterexample: with exactly the claimed flag set of
DATE and TIME and no SPACE flag, the formatter emits a 'T' separator,
and no grammar of parse_timestamp accepts that string: the round trip
fails with the unrecognized-format error already at the epoch. -/
theorem C8_cex :
    format_iso_time (localtimeModel 0) 0 { date := true, time := true } =
      ("1970-01-01T00:00:00").data ∧
    parse_timestamp (("1970-01-01T00:00:00").data) 0 = .error .unknownFormat :=
  ⟨rfl, rfl⟩

/-- Claim C8 (amended): with the SPACE flag added to DATE and TIME the
separator becomes ' ', the yyyy-mm-dd HH:MM:SS grammar consumes the
formatter output, and re-parsing returns the original instant truncated
to whole seconds, for every instant below 2^64 whose decomposed year
has four digits. -/
theorem C8_roundtrip (T : Nat) (hT : T < P64)
    (hy0 : 1000 ≤ (localtimeModel ((T / 1000000 : Nat) : Int)).tm_year + 1900)
    (hy1 : (localtimeModel ((T / 1000000 : Nat) : Int)).tm_year + 1900 ≤ 9999) :
    parse_timestamp
      (format_iso_time (localtimeModel ((T / 1000000 : Nat) : Int))
        ((T % 1000000 : Nat) : Int) { date := true, time := true, space := true }) T =
      .ok (T / 1000000 * 1000000) := by
  have hx0 : (0 : Int) ≤ ((T / 1000000 : Nat) : Int) := Int.natCast_nonneg _
  obtain ⟨hs0, hs1, hmi0, hmi1, hh0, hh1, hmon0, hmon1, hd0, hd1⟩ :=
    localtimeModel_bounds ((T / 1000000 : Nat) : Int) hx0
  rw [parse_format_space (localtimeModel ((T / 1000000 : Nat) : Int)) _ T hy0 hy1
        hmon0 hmon1 hd0 hd1 hh0 hh1 hmi0 hmi1 hs0 hs1]
  have heta : ({ localtimeModel ((T / 1000000 : Nat) : Int) with
      tm_sec := (localtimeModel ((T / 1000000 : Nat) : Int)).tm_sec,
      tm_min := (localtimeModel ((T / 1000000 : Nat) : Int)).tm_min,
      tm_hour := (localtimeModel ((T / 1000000 : Nat) : Int)).tm_hour,
      tm_mday := (localtimeModel ((T / 1000000 : Nat) : Int)).tm_mday,
      tm_mon := (localtimeModel ((T / 1000000 : Nat) : Int)).tm_mon,
      tm_year := (localtimeModel ((T / 1000000 : Nat) : Int)).tm_year } : Tm) =
      localtimeModel ((T / 1000000 : Nat) : Int) := rfl
  rw [heta]
  rw [finishTs_seed ((T / 1000000 : Nat) : Int) 0 0 hx0
        (by rw [toNat_div_cast]; have := Nat.div_mul_le_self T 1000000; omega)]
  rw [toNat_div_cast]
  split_ifs with h
  · have he : T / 1000000 * 1000000 + 0 - 0 = T / 1000000 * 1000000 := by omega
    rw [he]
  · have he : T / 1000000 * 1000000 = 0 := by omega
    rw [he]

/-- Claim C8 witness: a concrete 2012 instant with a sub-second
component round-trips to its whole-second truncation through the
space-separated format. -/
theorem C8_witness :
    ((1348331662123456 : Nat) < P64 ∧
      1000 ≤ (localtimeModel ((1348331662123456 / 1000000 : Nat) : Int)).tm_year + 1900 ∧
      (localtimeModel ((1348331662123456 / 1000000 : Nat) : Int)).tm_year + 1900 ≤ 9999) ∧
    parse_timestamp
      (format_iso_time (localtimeModel ((1348331662123456 / 1000000 : Nat) : Int))
        ((1348331662123456 % 1000000 : Nat) : Int)
        { date := true, time := true, space := true }) 1348331662123456 =
      .ok 1348331662000000 :=
  ⟨⟨by decide, by decide, by decide⟩, by
    have h := C8_roundtrip 1348331662123456 (by decide) (by decide) (by decide)
    simpa using h⟩

end Timeutils
